import Mathlib

/-!
Verification of the email data-preparation pipeline
(`fine-tuning/scripts/prepare-email-data.py`).

Strings are modelled as `List Char` (`Str`).  Python regular-expression
substitutions are modelled by recursive functions on `Str`:

* `re.sub(r'\n--\s*\n.*', '', text, flags=re.DOTALL)` truncates the text at the
  leftmost position matching newline, two dashes, optional whitespace, newline
  (`subTrunc sig1Head`, since `.*` with DOTALL extends to the end of the text);
* `re.sub(r'\nSent from my .*', '', text)` (no DOTALL) removes every occurrence
  of newline + marker up to — but not including — the next newline (`sub2`);
* `re.sub(r'\nBest regards.*', ..., flags=re.DOTALL)` and
  `re.sub(r'\nThanks,.*', ..., flags=re.DOTALL)` truncate at the leftmost
  occurrence of their fixed marker (`subTrunc` of a `begWith` test);
* `re.sub(r'\n\n+', '\n\n', text)` replaces every maximal run of two or more
  newlines by exactly two (`collapse`);
* `str.strip()` removes whitespace from both ends (`pyStrip`).

Whitespace (`\s` and `strip`) is modelled over the ASCII whitespace characters.
Fields fetched from the database can be SQL NULL, i.e. Python `None`; such
fields are modelled as `Option Str`, and Python code that would raise an
exception on `None` (attribute access on it) is modelled with `Except`.
-/

abbrev Str := List Char

/-- Python whitespace characters (ASCII part of `\s` / `str.strip`). -/
def pyWS (c : Char) : Bool :=
  decide (c = ' ' ∨ c = '\t' ∨ c = '\n' ∨ c = '\r' ∨ c = '\x0B' ∨ c = '\x0C')

/-- `wsThenNL l` holds when `l` starts with optional whitespace followed by a
newline — the `\s*\n` part of the signature-delimiter pattern. -/
def wsThenNL : Str → Bool
  | [] => false
  | c :: r => if c = '\n' then true else if pyWS c then wsThenNL r else false

/-- `patAt m l`: `l` starts with the literal characters `m` and then satisfies
`wsThenNL` — i.e. the pattern "`m` then `\s*\n`" matches at the head of `l`. -/
def patAt : Str → Str → Bool
  | [], l => wsThenNL l
  | _ :: _, [] => false
  | c :: m, d :: l => if c = d then patAt m l else false

/-- The pattern `\n--\s*\n` matches at the head of `l`. -/
def sig1Head : Str → Bool
  | [] => false
  | c :: r => if c = '\n' then patAt ('-' :: '-' :: []) r else false

/-- `begWith m l`: `l` starts with the literal string `m`. -/
def begWith : Str → Str → Bool
  | [], _ => true
  | _ :: _, [] => false
  | c :: m, d :: l => if c = d then begWith m l else false

/-- Truncate at the leftmost position where `p` matches: the model of
`re.sub(pat ++ ".*", '', text, flags=re.DOTALL)` for a pattern test `p`. -/
def subTrunc (p : Str → Bool) : Str → Str
  | [] => []
  | c :: rest => if p (c :: rest) then [] else c :: subTrunc p rest

/-- Drop characters up to (not including) the next newline. -/
def dropLine : Str → Str
  | [] => []
  | c :: rest => if c = '\n' then c :: rest else dropLine rest

/-- Drop leading newlines. -/
def dropNl : Str → Str
  | [] => []
  | c :: rest => if c = '\n' then dropNl rest else c :: rest

/-- Drop leading Python whitespace. -/
def dropWs : Str → Str
  | [] => []
  | c :: rest => if pyWS c then dropWs rest else c :: rest

theorem dropLine_length_le (l : Str) : (dropLine l).length ≤ l.length := by
  induction l with
  | nil => simp [dropLine]
  | cons c rest ih =>
    simp only [dropLine]
    split
    · exact Nat.le_refl _
    · exact Nat.le_trans ih (Nat.le_succ _)

/-- The tail of the `\nSent from my ` marker. -/
def sentTail : Str := "Sent from my ".toList

/-- The `\nSent from my ` marker. -/
def nlSent : Str := '\n' :: sentTail

/-- The `\nBest regards` marker. -/
def nlBest : Str := '\n' :: "Best regards".toList

/-- The `\nThanks,` marker. -/
def nlThanks : Str := '\n' :: "Thanks,".toList

theorem begWith_length {m l : Str} (h : begWith m l = true) : m.length ≤ l.length := by
  induction m generalizing l with
  | nil => simp
  | cons c m ih =>
    cases l with
    | nil => simp [begWith] at h
    | cons d l =>
      simp only [begWith] at h
      split at h
      · exact Nat.succ_le_succ (ih h)
      · exact absurd h (by simp)

theorem sub2_dec {c : Char} {rest : Str} (h : begWith nlSent (c :: rest) = true) :
    (dropLine ((c :: rest).drop nlSent.length)).length < (c :: rest).length := by
  have h14 : nlSent.length ≤ (c :: rest).length := begWith_length h
  have hd : ((c :: rest).drop nlSent.length).length = (c :: rest).length - nlSent.length := by
    simp
  have h1 : (dropLine ((c :: rest).drop nlSent.length)).length ≤
      (c :: rest).length - nlSent.length := by
    rw [← hd]; exact dropLine_length_le _
  have hpos : 0 < nlSent.length := by simp [nlSent]
  have h2 : (c :: rest).length - nlSent.length < (c :: rest).length :=
    Nat.sub_lt (Nat.lt_of_lt_of_le hpos h14) hpos
  exact Nat.lt_of_le_of_lt h1 h2

/-- Model of `re.sub(r'\nSent from my .*', '', text)` (no DOTALL): every
occurrence of the marker is removed together with the rest of its line. -/
def sub2 : Str → Str
  | [] => []
  | c :: rest =>
    if begWith nlSent (c :: rest) then
      sub2 (dropLine ((c :: rest).drop nlSent.length))
    else
      c :: sub2 rest
termination_by l => l.length
decreasing_by
  · exact sub2_dec (by assumption)
  · simp

theorem dropNl_length_le (l : Str) : (dropNl l).length ≤ l.length := by
  induction l with
  | nil => simp [dropNl]
  | cons c rest ih =>
    simp only [dropNl]
    split
    · exact Nat.le_trans ih (Nat.le_succ _)
    · exact Nat.le_refl _

/-- Model of `re.sub(r'\n\n+', '\n\n', text)`: every maximal run of two or
more newlines becomes exactly two. -/
def collapse (l : Str) : Str :=
  match l with
  | [] => []
  | [c] => [c]
  | c :: d :: rest =>
    if c = '\n' ∧ d = '\n' then
      '\n' :: '\n' :: collapse (dropNl rest)
    else
      c :: collapse (d :: rest)
termination_by l.length
decreasing_by
  · have := dropNl_length_le rest
    simp only [List.length_cons]
    omega
  · simp

/-- Model of Python `str.strip()`: drop whitespace from both ends. -/
def pyStrip (l : Str) : Str := ((dropWs l).reverse |> dropWs).reverse

/-- `clean_email_text` (prepare-email-data.py, lines 131–158). -/
def clean_email_text (l : Str) : Str :=
  if l = [] then []
  else
    let t1 := subTrunc sig1Head l
    let t2 := sub2 t1
    let t3 := subTrunc (fun s => begWith nlBest s) t2
    let t4 := subTrunc (fun s => begWith nlThanks s) t3
    let t6 := pyStrip (collapse t4)
    if t6.length < 50 then [] else t6

/-! ## Data model

An email row as built by `fetch_sent_emails` (lines 104–124): every key is
present, and any value may be SQL NULL (Python `None`), modelled by `Option`.
-/

structure Email where
  id : Option Str
  subject : Option Str
  text_plain : Option Str
  text_html : Option Str
  snippet : Option Str
  sent_at : Option Str
  from_email : Option Str
  to_email : Option Str

/-- `clean_email_text` applied to `email.get('text_plain', '')`: a `None`
value falls into the `if not text` branch and yields the empty string. -/
def cleanOpt : Option Str → Str
  | none => []
  | some s => clean_email_text s

/-- Python `str(value)` for a possibly-`None` value (`str(None) = "None"`). -/
def pyStrOfOpt : Option Str → Str
  | none => "None".toList
  | some s => s

/-- The reply test of `extract_context` (line 176):
`subject.startswith('Re: ') or subject.startswith('RE: ')`. -/
def ctxIsReply (s : Str) : Bool :=
  begWith "Re: ".toList s || begWith "RE: ".toList s

/-- The value computed by `extract_context` for a string subject. -/
def extract_context_str (s : Str) : Option Str :=
  if ctxIsReply s then some ("Previous email subject: ".toList ++ s.drop 4)
  else none

/-- `extract_context` (lines 160–179).  `email.get('subject', '')` yields the
stored value; when it is `None`, `None.startswith(...)` raises
`AttributeError`, modelled as `Except.error`. -/
def extract_context (e : Email) : Except Unit (Option Str) :=
  match e.subject with
  | none => .error ()
  | some s => .ok (extract_context_str s)

structure Metadata where
  email_id : Option Str
  subject : Str
  sent_at : Str
  «from» : Option Str
  «to» : Option Str
deriving DecidableEq

structure TrainingExample where
  instruction : Str
  input : Str
  output : Str
  metadata : Metadata
deriving DecidableEq

/-- The instruction string assembled at lines 204–207. -/
def mkInstruction (subject : Str) (context : Option Str) : Str :=
  match context with
  | some c =>
      "Write a professional email reply about: ".toList ++ subject ++
        "\n\nContext: ".toList ++ c
  | none => "Write a professional email about: ".toList ++ subject

/-- The training example built at lines 209–220 for one record whose cleaned
body `text` is non-empty and whose subject is the string `subj`. -/
def mkExample (e : Email) (subj : Str) (text : Str) : TrainingExample :=
  { instruction := mkInstruction subj (extract_context_str subj)
    input := []
    output := text
    metadata :=
      { email_id := e.id
        subject := subj
        sent_at := pyStrOfOpt e.sent_at
        «from» := e.from_email
        «to» := e.to_email } }

/-- `create_training_examples` (lines 181–225).  A record whose cleaned body
is empty is skipped before the subject is touched; otherwise
`extract_context` runs and can raise on a `None` subject, aborting the batch
(`Except.error`). -/
def create_training_examples : List Email → Except Unit (List TrainingExample)
  | [] => .ok []
  | e :: rest =>
    let text := cleanOpt e.text_plain
    if text = [] then create_training_examples rest
    else
      match e.subject with
      | none => .error ()
      | some subj =>
        match create_training_examples rest with
        | .error u => .error u
        | .ok exs => .ok (mkExample e subj text :: exs)

structure AlpacaExample where
  instruction : Str
  input : Str
  output : Str
deriving DecidableEq

/-- `create_alpaca_format` (lines 227–247): project each example to
`{instruction, input, output}`, dropping metadata. -/
def create_alpaca_format (examples : List TrainingExample) : List AlpacaExample :=
  examples.map fun ex => { instruction := ex.instruction, input := ex.input, output := ex.output }

structure ChatMessage where
  role : Str
  content : Str
deriving DecidableEq

structure ChatExample where
  messages : List ChatMessage
deriving DecidableEq

/-- The fixed system prompt of `create_chat_format` (line 266). -/
def systemPrompt : Str :=
  ("You are a helpful email assistant. Write emails in a professional, clear, " ++
    "and concise manner matching the user's writing style.").toList

/-- `create_chat_format` (lines 249–280): wrap each example into a
three-message conversation. -/
def create_chat_format (examples : List TrainingExample) : List ChatExample :=
  examples.map fun ex =>
    { messages :=
        [ { role := "system".toList, content := systemPrompt }
        , { role := "user".toList, content := ex.instruction }
        , { role := "assistant".toList, content := ex.output } ] }

/-- `split_dataset` (lines 282–305).  `random.shuffle` is modelled by passing
the already-shuffled list; the cut index is `int(len(examples) * train_ratio)`
(truncation toward zero of a non-negative product = floor). -/
def split_dataset {α : Type} (shuffled : List α) ( train_ratio : ℚ) : List α × List α :=
  let split_idx := (⌊(shuffled.length : ℚ) * train_ratio⌋).toNat
  (shuffled.take split_idx, shuffled.drop split_idx)

/-- The reply test of `create_statistics` (line 385):
`s.startswith(('Re:', 'RE:'))` — note: no trailing space. -/
def statsIsReply (s : Str) : Bool :=
  begWith "Re:".toList s || begWith "RE:".toList s

/-- The forward test of `create_statistics` (line 386):
`s.startswith(('Fwd:', 'FW:'))`. -/
def statsIsFwd (s : Str) : Bool :=
  begWith "Fwd:".toList s || begWith "FW:".toList s

structure Stats where
  total_examples : Nat
  avg_email_length : Nat
  min_email_length : Nat
  max_email_length : Nat
  reply_emails : Nat
  forward_emails : Nat
  new_emails : Int
deriving DecidableEq

/-- `create_statistics` (lines 365–398).  The empty input returns `{}`
(modelled `none`) before any division happens. -/
def create_statistics : List TrainingExample → Option Stats
  | [] => none
  | e :: rest =>
    let exs := e :: rest
    let total := exs.length
    let lens : List Nat := exs.map fun ex => ex.output.length
    let reply_count := exs.countP fun ex => statsIsReply ex.metadata.subject
    let forward_count := exs.countP fun ex => statsIsFwd ex.metadata.subject
    some
      { total_examples := total
        avg_email_length := (⌊(lens.sum : ℚ) / (total : ℚ)⌋).toNat
        min_email_length := lens.foldl min e.output.length
        max_email_length := lens.foldl max e.output.length
        reply_emails := reply_count
        forward_emails := forward_count
        new_emails := (total : Int) - reply_count - forward_count }

/-! ## The driver (`main`, lines 401–505)

`main` is modelled as a function of its decision-relevant inputs: whether the
database connection succeeds, the fetched email list, `--min-emails`, and
`--format`.  The result records the process exit status and which output
files were written.  An uncaught exception (see `create_training_examples`)
terminates the interpreter with a non-zero status and writes nothing.
-/

inductive OutFormat where
  | alpaca
  | chat
  | both
deriving DecidableEq

/-- The files `save_dataset` writes for one format (lines 335–348). -/
def filesForOne (fmt : String) : List String :=
  ["train_" ++ fmt ++ ".jsonl", "val_" ++ fmt ++ ".jsonl", "dataset_" ++ fmt ++ ".json"]

/-- The files written for the selected `--format` (lines 483–487). -/
def filesForFormat : OutFormat → List String
  | .alpaca => filesForOne "alpaca"
  | .chat => filesForOne "chat"
  | .both => filesForOne "alpaca" ++ filesForOne "chat"

structure RunReport where
  exitCode : Nat
  filesWritten : List String
deriving DecidableEq

/-- The control flow of `main` (lines 444–501): connection failure exits 1
(line 64); `len(emails) < min_emails` exits 1 (line 461); an exception during
example creation aborts with a non-zero status; an empty example list exits 1
(line 468); otherwise the output files are written and the run exits 0. -/
def mainRun (connOk : Bool) (fetched : List Email) (minEmails : Nat)
    (fmt : OutFormat) : RunReport :=
  if connOk = false then { exitCode := 1, filesWritten := [] }
  else if fetched.length < minEmails then { exitCode := 1, filesWritten := [] }
  else
    match create_training_examples fetched with
    | .error _ => { exitCode := 1, filesWritten := [] }
    | .ok exs =>
      if exs = [] then { exitCode := 1, filesWritten := [] }
      else { exitCode := 0, filesWritten := filesForFormat fmt }

/-! ## Spec-side formulations for claim C1

The claim describes cleaning in terms of "the match point": each matched
marker removes everything from the match point onward.  `specTrunc` renders
"remove everything from the first match point to the end of the text" by
taking the prefix up to the first suffix position satisfying the pattern
test.  `specSub2` renders "remove the matched line" in line-based terms:
split on newlines, drop every line after the first that begins with
`Sent from my `, and rejoin.
-/

/-- Take everything before the first position whose suffix matches `p`. -/
def specTrunc (p : Str → Bool) (l : Str) : Str := l.take (l.tails.findIdx p)

/-- Split on newline characters (Python `str.split('\n')` shape). -/
def splitNl : Str → List Str
  | [] => [[]]
  | c :: rest =>
    if c = '\n' then [] :: splitNl rest
    else
      match splitNl rest with
      | [] => [[c]]
      | l :: ls => (c :: l) :: ls

/-- Rejoin lines with newline characters. -/
def joinNl : List Str → Str
  | [] => []
  | [l] => l
  | l :: ls => l ++ '\n' :: joinNl ls

/-- Claim C1 amended, `Sent from my` clause: every line after the first that
begins with `Sent from my ` is removed (the match extends only to the end of
that line, because the pattern has no DOTALL flag). -/
def specSub2 (l : Str) : Str :=
  match splitNl l with
  | [] => []
  | first :: rest => joinNl (first :: rest.filter fun ln => !begWith sentTail ln)

/-- The cleaning function exactly as claim C1 states it: all four markers
remove everything from the match point to the end of the text. -/
def specCleanC1 (l : Str) : Str :=
  let t1 := specTrunc sig1Head l
  let t2 := specTrunc (fun s => begWith nlSent s) t1
  let t3 := specTrunc (fun s => begWith nlBest s) t2
  let t4 := specTrunc (fun s => begWith nlThanks s) t3
  let t6 := pyStrip (collapse t4)
  if t6.length < 50 then [] else t6

/-- The cleaning function as claim C1 must be amended: the `Sent from my`
marker removes only to the end of the matched line; the other three markers
remove to the end of the text. -/
def specCleanAmended (l : Str) : Str :=
  let t1 := specTrunc sig1Head l
  let t2 := specSub2 t1
  let t3 := specTrunc (fun s => begWith nlBest s) t2
  let t4 := specTrunc (fun s => begWith nlThanks s) t3
  let t6 := pyStrip (collapse t4)
  if t6.length < 50 then [] else t6

/-! ## Occurrence predicates

`noOcc p l` states that no suffix of `l` matches the pattern test `p` — the
regex pattern has no occurrence anywhere in `l`.  `PrefMono p` states that a
match survives extending the text to the right, which holds for every pattern
test used by the cleaner; it makes `noOcc` stable under taking prefixes.
-/

def noOcc (p : Str → Bool) (l : Str) : Prop := ∀ s, s <:+ l → p s = false

def PrefMono (p : Str → Bool) : Prop := ∀ s t, s <+: t → p s = true → p t = true

theorem begWith_iff {m l : Str} : begWith m l = true ↔ m <+: l := by
  induction m generalizing l with
  | nil => simp [begWith]
  | cons c m ih =>
    cases l with
    | nil => simp [begWith]
    | cons d l =>
      simp only [begWith, List.cons_prefix_cons]
      split
      · simp_all
      · simp_all

theorem wsThenNL_mono {r r' : Str} (hp : r <+: r') (h : wsThenNL r = true) :
    wsThenNL r' = true := by
  induction r generalizing r' with
  | nil => simp [wsThenNL] at h
  | cons c t ih =>
    cases r' with
    | nil => simp at hp
    | cons d t' =>
      rw [List.cons_prefix_cons] at hp
      obtain ⟨rfl, ht⟩ := hp
      by_cases hc : c = '\n'
      · simp [wsThenNL, hc]
      · by_cases hw : pyWS c
        · have h' : wsThenNL t = true := by simpa [wsThenNL, hc, hw] using h
          simpa [wsThenNL, hc, hw] using ih ht h'
        · simp [wsThenNL, hc, hw] at h

theorem patAt_mono {m l l' : Str} (hp : l <+: l') (h : patAt m l = true) :
    patAt m l' = true := by
  induction m generalizing l l' with
  | nil => exact wsThenNL_mono hp h
  | cons c m ih =>
    cases l with
    | nil => simp [patAt] at h
    | cons d t =>
      cases l' with
      | nil => simp at hp
      | cons d' t' =>
        rw [List.cons_prefix_cons] at hp
        obtain ⟨rfl, ht⟩ := hp
        by_cases hcd : c = d
        · have h' : patAt m t = true := by simpa [patAt, hcd] using h
          simpa [patAt, hcd] using ih ht h'
        · simp [patAt, hcd] at h

theorem prefMono_sig1 : PrefMono sig1Head := by
  intro s t hp h
  cases s with
  | nil => simp [sig1Head] at h
  | cons c s =>
    cases t with
    | nil => simp at hp
    | cons d t =>
      rw [List.cons_prefix_cons] at hp
      obtain ⟨rfl, ht⟩ := hp
      by_cases hc : c = '\n'
      · have h' : patAt ('-' :: '-' :: []) s = true := by simpa [sig1Head, hc] using h
        simpa [sig1Head, hc] using patAt_mono ht h'
      · simp [sig1Head, hc] at h

theorem prefMono_begWith (m : Str) : PrefMono (fun l => begWith m l) := by
  intro s t hp h
  rw [begWith_iff] at h ⊢
  exact h.trans hp

theorem noOcc_suffix {p : Str → Bool} {l s : Str} (h : noOcc p l) (hs : s <:+ l) :
    noOcc p s := fun u hu => h u (hu.trans hs)

theorem suffix_of_prefix_decomp {y t s : Str} (hy : y <+: t) (hs : s <:+ y) :
    ∃ s2 : Str, s <+: s2 ∧ s2 <:+ t := by
  obtain ⟨u, rfl⟩ := hy
  obtain ⟨v, rfl⟩ := hs
  exact ⟨s ++ u, List.prefix_append s u, by
    simp only [List.append_assoc]
    exact List.suffix_append v (s ++ u)⟩

theorem noOcc_of_pfx {p : Str → Bool} {y t : Str} (hm : PrefMono p) (h : noOcc p t)
    (hy : y <+: t) : noOcc p y := by
  intro s hs
  obtain ⟨s2, hs2, hs2t⟩ := suffix_of_prefix_decomp hy hs
  by_contra hne
  have : p s = true := by simpa using hne
  have := hm s s2 hs2 this
  rw [h s2 hs2t] at this
  exact absurd this (by simp)

/-! ## Truncating substitutions (`subTrunc`) -/

theorem subTrunc_pfx (p : Str → Bool) (l : Str) : subTrunc p l <+: l := by
  induction l with
  | nil => simp [subTrunc]
  | cons c rest ih =>
    simp only [subTrunc]
    split
    · exact List.nil_prefix
    · exact List.cons_prefix_cons.mpr ⟨rfl, ih⟩

theorem subTrunc_free {p : Str → Bool} (hm : PrefMono p) (hnil : p [] = false)
    (l : Str) : noOcc p (subTrunc p l) := by
  induction l with
  | nil =>
    intro s hs
    simp only [subTrunc] at hs
    rw [List.suffix_nil.mp hs]
    exact hnil
  | cons c rest ih =>
    simp only [subTrunc]
    split
    · intro s hs
      rw [List.suffix_nil.mp hs]
      exact hnil
    · rename_i hpc
      intro s hs
      rcases List.suffix_cons_iff.mp hs with h | h
      · subst h
        by_contra hne
        have hps : p (c :: subTrunc p rest) = true := by simpa using hne
        have : p (c :: rest) = true :=
          hm _ _ (List.cons_prefix_cons.mpr ⟨rfl, subTrunc_pfx p rest⟩) hps
        simp [this] at hpc
      · exact ih s h

theorem subTrunc_id {p : Str → Bool} {l : Str} (h : noOcc p l) : subTrunc p l = l := by
  induction l with
  | nil => simp [subTrunc]
  | cons c rest ih =>
    simp only [subTrunc]
    have hc : p (c :: rest) = false := h _ (List.suffix_refl _)
    rw [hc]
    simp only [Bool.false_eq_true, if_false, List.cons.injEq, true_and]
    exact ih (noOcc_suffix h (List.suffix_cons c rest))

theorem subTrunc_eq_specTrunc (p : Str → Bool) (l : Str) :
    subTrunc p l = specTrunc p l := by
  induction l with
  | nil => simp [subTrunc, specTrunc]
  | cons c rest ih =>
    simp only [subTrunc, specTrunc, List.tails_cons, List.findIdx_cons]
    split
    · rename_i hp
      simp [hp]
    · rename_i hp
      have hp' : p (c :: rest) = false := by simpa using hp
      simp [hp', List.take_succ_cons, ih, specTrunc]

/-! ## Lemmas about `sub2` (the `Sent from my` substitution) -/

theorem dropLine_sfx (l : Str) : dropLine l <:+ l := by
  induction l with
  | nil => simp [dropLine]
  | cons c rest ih =>
    simp only [dropLine]
    split
    · exact List.suffix_refl _
    · exact ih.trans (List.suffix_cons c rest)

theorem dropLine_shape (l : Str) : dropLine l = [] ∨ ∃ r, dropLine l = '\n' :: r := by
  induction l with
  | nil => simp [dropLine]
  | cons c rest ih =>
    simp only [dropLine]
    split
    · rename_i hc
      exact Or.inr ⟨rest, by rw [hc]⟩
    · exact ih

theorem begWith_cons {a : Char} {m l : Str} (c : Char) :
    begWith (a :: m) (c :: l) = true ↔ a = c ∧ begWith m l = true := by
  simp only [begWith]
  split
  · simp_all
  · simp_all

theorem sub2_rem_sfx (c : Char) (r : Str) :
    dropLine ((c :: r).drop nlSent.length) <:+ c :: r :=
  (dropLine_sfx _).trans (List.drop_suffix _ _)

theorem nlSent_not_nl : '\n' ∉ sentTail := by decide

theorem nlBest_tail_not_nl : '\n' ∉ "Best regards".toList := by decide

theorem nlThanks_tail_not_nl : '\n' ∉ "Thanks,".toList := by decide

/-- A match of "`m` then `\s*\n`" at the head of `sub2 z` was already there
at the head of `z`, provided `m` contains no newline: `sub2` removes segments
whose removal leaves the following newline (or end of text) adjacent. -/
theorem patAt_sub2 (z : Str) :
    ∀ m : Str, '\n' ∉ m → patAt m (sub2 z) = true → patAt m z = true := by
  induction z using sub2.induct with
  | case1 =>
    intro m hm h
    cases m with
    | nil => simp [sub2, patAt, wsThenNL] at h
    | cons c m => simp [sub2, patAt] at h
  | case2 c r hbeg ih =>
    intro m hm h
    rw [show sub2 (c :: r) = sub2 (dropLine ((c :: r).drop nlSent.length)) by
      rw [sub2]; simp [hbeg]] at h
    have h2 := ih m hm h
    have hc : '\n' = c := by
      have := (begWith_cons (m := sentTail) c).mp (by simpa [nlSent] using hbeg)
      exact this.1
    cases m with
    | nil => simp [patAt, wsThenNL, ← hc]
    | cons d m =>
      exfalso
      rcases dropLine_shape ((c :: r).drop nlSent.length) with hr | ⟨r', hr⟩
      · rw [hr] at h2
        simp [patAt] at h2
      · rw [hr] at h2
        have hd : d = '\n' ∧ patAt m r' = true := by
          by_cases hdn : d = '\n'
          · exact ⟨hdn, by simpa [patAt, hdn] using h2⟩
          · simp [patAt, hdn] at h2
        exact hm (by simp [hd.1])
  | case3 c r hbeg ih =>
    intro m hm h
    rw [show sub2 (c :: r) = c :: sub2 r by rw [sub2]; simp [hbeg]] at h
    cases m with
    | nil =>
      by_cases hc : c = '\n'
      · simp [patAt, wsThenNL, hc]
      · by_cases hw : pyWS c
        · have h' : wsThenNL (sub2 r) = true := by simpa [patAt, wsThenNL, hc, hw] using h
          have := ih [] (by simp) (by simpa [patAt] using h')
          simpa [patAt, wsThenNL, hc, hw] using this
        · simp [patAt, wsThenNL, hc, hw] at h
    | cons d m =>
      have hd : d = c ∧ patAt m (sub2 r) = true := by
        by_cases hdc : d = c
        · exact ⟨hdc, by simpa [patAt, hdc] using h⟩
        · simp [patAt, hdc] at h
      have := ih m (fun hmem => hm (by simp [hmem])) hd.2
      simp [patAt, hd.1, this]

/-- Like `patAt_sub2` for a plain literal prefix with no newline. -/
theorem begWith_sub2 (z : Str) :
    ∀ m : Str, '\n' ∉ m → begWith m (sub2 z) = true → begWith m z = true := by
  induction z using sub2.induct with
  | case1 =>
    intro m hm h
    cases m with
    | nil => rfl
    | cons c m => simp [sub2, begWith] at h
  | case2 c r hbeg ih =>
    intro m hm h
    rw [show sub2 (c :: r) = sub2 (dropLine ((c :: r).drop nlSent.length)) by
      rw [sub2]; simp [hbeg]] at h
    have h2 := ih m hm h
    cases m with
    | nil => rfl
    | cons d m =>
      exfalso
      rcases dropLine_shape ((c :: r).drop nlSent.length) with hr | ⟨r', hr⟩
      · rw [hr] at h2
        simp [begWith] at h2
      · rw [hr] at h2
        have hd := ((begWith_cons (m := m) '\n').mp h2).1
        exact hm (by simp [hd])
  | case3 c r hbeg ih =>
    intro m hm h
    rw [show sub2 (c :: r) = c :: sub2 r by rw [sub2]; simp [hbeg]] at h
    cases m with
    | nil => rfl
    | cons d m =>
      have hd := (begWith_cons (m := m) c).mp h
      have := ih m (fun hmem => hm (by simp [hmem])) hd.2
      exact (begWith_cons (m := m) c).mpr ⟨hd.1, this⟩

/-- The output of `sub2` contains no occurrence of the marker. -/
theorem sub2_free (z : Str) : noOcc (fun s => begWith nlSent s) (sub2 z) := by
  induction z using sub2.induct with
  | case1 =>
    intro s hs
    simp only [sub2] at hs
    rw [List.suffix_nil.mp hs]
    simp [begWith, nlSent]
  | case2 c r hbeg ih =>
    intro s hs
    rw [show sub2 (c :: r) = sub2 (dropLine ((c :: r).drop nlSent.length)) by
      rw [sub2]; simp [hbeg]] at hs
    exact ih s hs
  | case3 c r hbeg ih =>
    intro s hs
    rw [show sub2 (c :: r) = c :: sub2 r by rw [sub2]; simp [hbeg]] at hs
    rcases List.suffix_cons_iff.mp hs with h | h
    · subst h
      by_contra hne
      have hps : begWith nlSent (c :: sub2 r) = true := by simpa using hne
      have h1 := (begWith_cons (m := sentTail) c).mp (by simpa [nlSent] using hps)
      have h2 := begWith_sub2 r sentTail nlSent_not_nl h1.2
      have : begWith nlSent (c :: r) = true := by
        rw [show nlSent = '\n' :: sentTail from rfl]
        exact (begWith_cons c).mpr ⟨h1.1, h2⟩
      exact hbeg this
    · exact ih s h

/-- `sub2` preserves the absence of the signature-delimiter pattern. -/
theorem sub2_pres_sig1 (z : Str) (hz : noOcc sig1Head z) :
    noOcc sig1Head (sub2 z) := by
  induction z using sub2.induct with
  | case1 =>
    intro s hs
    simp only [sub2] at hs
    rw [List.suffix_nil.mp hs]
    simp [sig1Head]
  | case2 c r hbeg ih =>
    intro s hs
    rw [show sub2 (c :: r) = sub2 (dropLine ((c :: r).drop nlSent.length)) by
      rw [sub2]; simp [hbeg]] at hs
    exact ih (noOcc_suffix hz (sub2_rem_sfx c r)) s hs
  | case3 c r hbeg ih =>
    intro s hs
    rw [show sub2 (c :: r) = c :: sub2 r by rw [sub2]; simp [hbeg]] at hs
    rcases List.suffix_cons_iff.mp hs with h | h
    · subst h
      by_contra hne
      have hps : sig1Head (c :: sub2 r) = true := by simpa using hne
      have hc : c = '\n' := by
        by_contra hc
        simp [sig1Head, hc] at hps
      have hp : patAt ('-' :: '-' :: []) (sub2 r) = true := by
        simpa [sig1Head, hc] using hps
      have := patAt_sub2 r ('-' :: '-' :: []) (by decide) hp
      have hz1 : sig1Head (c :: r) = true := by simpa [sig1Head, hc] using this
      have hfalse := hz (c :: r) (List.suffix_refl _)
      simp [hz1] at hfalse
    · exact ih (noOcc_suffix hz (List.suffix_cons c r)) s h

/-- `sub2` preserves the absence of any newline-headed literal marker. -/
theorem sub2_pres_marker (m : Str) (hm : '\n' ∉ m) (z : Str)
    (hz : noOcc (fun s => begWith ('\n' :: m) s) z) :
    noOcc (fun s => begWith ('\n' :: m) s) (sub2 z) := by
  induction z using sub2.induct with
  | case1 =>
    intro s hs
    simp only [sub2] at hs
    rw [List.suffix_nil.mp hs]
    simp [begWith]
  | case2 c r hbeg ih =>
    intro s hs
    rw [show sub2 (c :: r) = sub2 (dropLine ((c :: r).drop nlSent.length)) by
      rw [sub2]; simp [hbeg]] at hs
    exact ih (noOcc_suffix hz (sub2_rem_sfx c r)) s hs
  | case3 c r hbeg ih =>
    intro s hs
    rw [show sub2 (c :: r) = c :: sub2 r by rw [sub2]; simp [hbeg]] at hs
    rcases List.suffix_cons_iff.mp hs with h | h
    · subst h
      by_contra hne
      have hps : begWith ('\n' :: m) (c :: sub2 r) = true := by simpa using hne
      have h1 := (begWith_cons (m := m) c).mp hps
      have h2 := begWith_sub2 r m hm h1.2
      have hz1 : begWith ('\n' :: m) (c :: r) = true :=
        (begWith_cons c).mpr ⟨h1.1, h2⟩
      have hfalse := hz (c :: r) (List.suffix_refl _)
      simp [hz1] at hfalse
    · exact ih (noOcc_suffix hz (List.suffix_cons c r)) s h

/-- If the marker occurs nowhere, `sub2` is the identity. -/
theorem sub2_id (z : Str) (hz : noOcc (fun s => begWith nlSent s) z) :
    sub2 z = z := by
  induction z using sub2.induct with
  | case1 => simp [sub2]
  | case2 c r hbeg ih =>
    exfalso
    have hfalse := hz (c :: r) (List.suffix_refl _)
    simp [hbeg] at hfalse
  | case3 c r hbeg ih =>
    rw [show sub2 (c :: r) = c :: sub2 r by rw [sub2]; simp [hbeg]]
    rw [ih (noOcc_suffix hz (List.suffix_cons c r))]

/-! ## Lemmas about `collapse` (the blank-line substitution) -/

/-- Three consecutive newlines — what `collapse` eliminates. -/
def nlnlnl : Str := '\n' :: '\n' :: '\n' :: []

theorem dropNl_sfx (l : Str) : dropNl l <:+ l := by
  induction l with
  | nil => simp [dropNl]
  | cons c rest ih =>
    simp only [dropNl]
    split
    · exact ih.trans (List.suffix_cons c rest)
    · exact List.suffix_refl _

theorem nl_dropNl_sfx (l : Str) : ('\n' :: dropNl l) <:+ ('\n' :: l) := by
  induction l with
  | nil => simp [dropNl]
  | cons c rest ih =>
    simp only [dropNl]
    split
    · rename_i hc
      subst hc
      exact ih.trans (List.suffix_cons _ _)
    · exact List.suffix_refl _

theorem dropNl_shape (l : Str) : dropNl l = [] ∨ ∃ c r, dropNl l = c :: r ∧ c ≠ '\n' := by
  induction l with
  | nil => simp [dropNl]
  | cons c rest ih =>
    simp only [dropNl]
    split
    · exact ih
    · rename_i hc
      exact Or.inr ⟨c, rest, rfl, hc⟩

theorem dropNl_id {l : Str} (h : ∀ c r, l = c :: r → c ≠ '\n') : dropNl l = l := by
  cases l with
  | nil => simp [dropNl]
  | cons c rest => simp [dropNl, h c rest rfl]

theorem collapse_head (l : Str) : (collapse l).head? = l.head? := by
  induction l using collapse.induct with
  | case1 => simp [collapse]
  | case2 c => simp [collapse]
  | case3 c d rest hc ih =>
    rw [show collapse (c :: d :: rest) = '\n' :: '\n' :: collapse (dropNl rest) by
      rw [collapse]; simp [hc]]
    simp [hc.1]
  | case4 c d rest hc ih =>
    rw [show collapse (c :: d :: rest) = c :: collapse (d :: rest) by
      rw [collapse]; simp [hc]]
    simp

theorem patAt_collapse (z : Str) :
    ∀ m : Str, '\n' ∉ m → patAt m (collapse z) = true → patAt m z = true := by
  induction z using collapse.induct with
  | case1 =>
    intro m hm h
    simpa [collapse] using h
  | case2 c =>
    intro m hm h
    simpa [collapse] using h
  | case3 c d rest hc ih =>
    intro m hm h
    rw [show collapse (c :: d :: rest) = '\n' :: '\n' :: collapse (dropNl rest) by
      rw [collapse]; simp [hc]] at h
    cases m with
    | nil => simp [patAt, wsThenNL, hc.1]
    | cons e m =>
      have he : e = '\n' ∧ patAt m ('\n' :: collapse (dropNl rest)) = true := by
        by_cases hen : e = '\n'
        · exact ⟨hen, by simpa [patAt, hen] using h⟩
        · simp [patAt, hen] at h
      exact absurd (by simp [he.1]) hm
  | case4 c d rest hc ih =>
    intro m hm h
    rw [show collapse (c :: d :: rest) = c :: collapse (d :: rest) by
      rw [collapse]; simp [hc]] at h
    cases m with
    | nil =>
      by_cases hcn : c = '\n'
      · simp [patAt, wsThenNL, hcn]
      · by_cases hw : pyWS c
        · have h' : wsThenNL (collapse (d :: rest)) = true := by
            simpa [patAt, wsThenNL, hcn, hw] using h
          have := ih [] (by simp) (by simpa [patAt] using h')
          simpa [patAt, wsThenNL, hcn, hw] using this
        · simp [patAt, wsThenNL, hcn, hw] at h
    | cons e m =>
      have he : e = c ∧ patAt m (collapse (d :: rest)) = true := by
        by_cases hec : e = c
        · exact ⟨hec, by simpa [patAt, hec] using h⟩
        · simp [patAt, hec] at h
      have := ih m (fun hmem => hm (by simp [hmem])) he.2
      simp [patAt, he.1, this]

theorem begWith_collapse (z : Str) :
    ∀ m : Str, '\n' ∉ m → begWith m (collapse z) = true → begWith m z = true := by
  induction z using collapse.induct with
  | case1 =>
    intro m hm h
    simpa [collapse] using h
  | case2 c =>
    intro m hm h
    simpa [collapse] using h
  | case3 c d rest hc ih =>
    intro m hm h
    rw [show collapse (c :: d :: rest) = '\n' :: '\n' :: collapse (dropNl rest) by
      rw [collapse]; simp [hc]] at h
    cases m with
    | nil => rfl
    | cons e m =>
      have he := ((begWith_cons (m := m) '\n').mp h).1
      exact absurd (by simp [he]) hm
  | case4 c d rest hc ih =>
    intro m hm h
    rw [show collapse (c :: d :: rest) = c :: collapse (d :: rest) by
      rw [collapse]; simp [hc]] at h
    cases m with
    | nil => rfl
    | cons e m =>
      have he := (begWith_cons (m := m) c).mp h
      have := ih m (fun hmem => hm (by simp [hmem])) he.2
      exact (begWith_cons (m := m) c).mpr ⟨he.1, this⟩

/-- The output of `collapse` never contains three consecutive newlines. -/
theorem collapse_no_triple (z : Str) : noOcc (fun s => begWith nlnlnl s) (collapse z) := by
  induction z using collapse.induct with
  | case1 =>
    intro s hs
    simp only [collapse] at hs
    rw [List.suffix_nil.mp hs]
    simp [begWith, nlnlnl]
  | case2 c =>
    intro s hs
    simp only [collapse] at hs
    rcases List.suffix_cons_iff.mp hs with h | h
    · subst h
      by_cases hc : c = '\n' <;> simp [begWith, nlnlnl, hc]
    · rw [List.suffix_nil.mp h]
      simp [begWith, nlnlnl]
  | case3 c d rest hc ih =>
    intro s hs
    rw [show collapse (c :: d :: rest) = '\n' :: '\n' :: collapse (dropNl rest) by
      rw [collapse]; simp [hc]] at hs
    have hw : (collapse (dropNl rest)).head? = (dropNl rest).head? := collapse_head _
    have hwhead : ∀ w', collapse (dropNl rest) = '\n' :: w' → False := by
      intro w' hweq
      rw [hweq] at hw
      rcases dropNl_shape rest with h0 | ⟨e, r', h1, h2⟩
      · rw [h0] at hw
        simp at hw
      · rw [h1] at hw
        simp at hw
        exact h2 hw.symm
    rcases List.suffix_cons_iff.mp hs with h | h
    · subst h
      by_contra hne
      have hb : begWith nlnlnl ('\n' :: '\n' :: collapse (dropNl rest)) = true := by
        simpa using hne
      have h1 := ((begWith_cons (m := ['\n', '\n']) '\n').mp (by simpa [nlnlnl] using hb)).2
      have h2 := ((begWith_cons (m := ['\n']) '\n').mp h1).2
      cases hw2 : collapse (dropNl rest) with
      | nil => rw [hw2] at h2; simp [begWith] at h2
      | cons e w' =>
        rw [hw2] at h2
        have he := ((begWith_cons (m := []) e).mp h2).1
        exact hwhead w' (by rw [hw2, ← he])
    rcases List.suffix_cons_iff.mp h with h | h
    · subst h
      by_contra hne
      have hb : begWith nlnlnl ('\n' :: collapse (dropNl rest)) = true := by
        simpa using hne
      have h1 := ((begWith_cons (m := ['\n', '\n']) '\n').mp (by simpa [nlnlnl] using hb)).2
      cases hw2 : collapse (dropNl rest) with
      | nil => rw [hw2] at h1; simp [begWith] at h1
      | cons e w' =>
        rw [hw2] at h1
        have he := ((begWith_cons (m := ['\n']) e).mp h1).1
        exact hwhead w' (by rw [hw2, ← he])
    · exact ih s h
  | case4 c d rest hc ih =>
    intro s hs
    rw [show collapse (c :: d :: rest) = c :: collapse (d :: rest) by
      rw [collapse]; simp [hc]] at hs
    rcases List.suffix_cons_iff.mp hs with h | h
    · subst h
      by_contra hne
      have hb : begWith nlnlnl (c :: collapse (d :: rest)) = true := by simpa using hne
      have h1 := (begWith_cons (m := ['\n', '\n']) c).mp (by simpa [nlnlnl] using hb)
      have hch : (collapse (d :: rest)).head? = some d := by
        rw [collapse_head]; simp
      have hd : d = '\n' := by
        cases hw2 : collapse (d :: rest) with
        | nil => rw [hw2] at h1; simp [begWith] at h1
        | cons e w' =>
          rw [hw2] at h1
          have he := ((begWith_cons (m := ['\n']) e).mp h1.2).1
          rw [hw2] at hch
          simp at hch
          rw [← hch, ← he]
      exact hc ⟨h1.1.symm, hd⟩
    · exact ih s h

/-- `collapse` preserves the absence of the signature-delimiter pattern. -/
theorem collapse_pres_sig1 (z : Str) (hz : noOcc sig1Head z) :
    noOcc sig1Head (collapse z) := by
  induction z using collapse.induct with
  | case1 =>
    intro s hs
    simp only [collapse] at hs
    rw [List.suffix_nil.mp hs]
    simp [sig1Head]
  | case2 c =>
    intro s hs
    simp only [collapse] at hs
    rcases List.suffix_cons_iff.mp hs with h | h
    · subst h
      by_cases hc : c = '\n' <;> simp [sig1Head, patAt, hc]
    · rw [List.suffix_nil.mp h]
      simp [sig1Head]
  | case3 c d rest hc ih =>
    intro s hs
    rw [show collapse (c :: d :: rest) = '\n' :: '\n' :: collapse (dropNl rest) by
      rw [collapse]; simp [hc]] at hs
    have hznl : noOcc sig1Head ('\n' :: dropNl rest) := by
      refine noOcc_suffix hz ?_
      have h1 : ('\n' :: dropNl rest) <:+ ('\n' :: rest) := nl_dropNl_sfx rest
      have h2 : ('\n' :: rest) <:+ (c :: d :: rest) := by
        rw [hc.2]
        exact List.suffix_cons c ('\n' :: rest)
      exact h1.trans h2
    rcases List.suffix_cons_iff.mp hs with h | h
    · subst h
      simp [sig1Head, patAt]
    rcases List.suffix_cons_iff.mp h with h | h
    · subst h
      by_contra hne
      have hb : sig1Head ('\n' :: collapse (dropNl rest)) = true := by simpa using hne
      have hp : patAt ('-' :: '-' :: []) (collapse (dropNl rest)) = true := by
        simpa [sig1Head] using hb
      have := patAt_collapse (dropNl rest) _ (by decide) hp
      have hz1 : sig1Head ('\n' :: dropNl rest) = true := by simpa [sig1Head] using this
      have hfalse := hznl ('\n' :: dropNl rest) (List.suffix_refl _)
      simp [hz1] at hfalse
    · exact ih (noOcc_suffix hz ((dropNl_sfx rest).trans
        ((List.suffix_cons d rest).trans (List.suffix_cons c (d :: rest))))) s h
  | case4 c d rest hc ih =>
    intro s hs
    rw [show collapse (c :: d :: rest) = c :: collapse (d :: rest) by
      rw [collapse]; simp [hc]] at hs
    rcases List.suffix_cons_iff.mp hs with h | h
    · subst h
      by_contra hne
      have hb : sig1Head (c :: collapse (d :: rest)) = true := by simpa using hne
      have hcn : c = '\n' := by
        by_contra hcn
        simp [sig1Head, hcn] at hb
      have hp : patAt ('-' :: '-' :: []) (collapse (d :: rest)) = true := by
        simpa [sig1Head, hcn] using hb
      have := patAt_collapse (d :: rest) _ (by decide) hp
      have hz1 : sig1Head (c :: d :: rest) = true := by simpa [sig1Head, hcn] using this
      have hfalse := hz (c :: d :: rest) (List.suffix_refl _)
      simp [hz1] at hfalse
    · exact ih (noOcc_suffix hz (List.suffix_cons c (d :: rest))) s h

/-- `collapse` preserves the absence of any newline-headed literal marker. -/
theorem collapse_pres_marker (m : Str) (hm : '\n' ∉ m) (z : Str)
    (hz : noOcc (fun s => begWith ('\n' :: m) s) z) :
    noOcc (fun s => begWith ('\n' :: m) s) (collapse z) := by
  induction z using collapse.induct with
  | case1 =>
    intro s hs
    simp only [collapse] at hs
    rw [List.suffix_nil.mp hs]
    simp [begWith]
  | case2 c =>
    intro s hs
    simp only [collapse] at hs
    rcases List.suffix_cons_iff.mp hs with h | h
    · subst h
      by_contra hne
      have hb : begWith ('\n' :: m) [c] = true := by simpa using hne
      have hfalse := hz [c] (List.suffix_refl _)
      simp [hb] at hfalse
    · rw [List.suffix_nil.mp h]
      simp [begWith]
  | case3 c d rest hc ih =>
    intro s hs
    rw [show collapse (c :: d :: rest) = '\n' :: '\n' :: collapse (dropNl rest) by
      rw [collapse]; simp [hc]] at hs
    have hznl : noOcc (fun s => begWith ('\n' :: m) s) ('\n' :: dropNl rest) := by
      refine noOcc_suffix hz ?_
      have h1 : ('\n' :: dropNl rest) <:+ ('\n' :: rest) := nl_dropNl_sfx rest
      have h2 : ('\n' :: rest) <:+ (c :: d :: rest) := by
        rw [hc.2]
        exact List.suffix_cons c ('\n' :: rest)
      exact h1.trans h2
    rcases List.suffix_cons_iff.mp hs with h | h
    · subst h
      by_contra hne
      have hb : begWith ('\n' :: m) ('\n' :: '\n' :: collapse (dropNl rest)) = true := by
        simpa using hne
      have h1 := ((begWith_cons (m := m) '\n').mp hb).2
      cases m with
      | nil =>
        have hfalse := hznl ('\n' :: dropNl rest) (List.suffix_refl _)
        simp [begWith] at hfalse
      | cons e m' =>
        have he := ((begWith_cons (m := m') '\n').mp h1).1
        exact hm (by simp [he])
    rcases List.suffix_cons_iff.mp h with h | h
    · subst h
      by_contra hne
      have hb : begWith ('\n' :: m) ('\n' :: collapse (dropNl rest)) = true := by
        simpa using hne
      have h1 := ((begWith_cons (m := m) '\n').mp hb).2
      have h2 := begWith_collapse (dropNl rest) m hm h1
      have hz1 : begWith ('\n' :: m) ('\n' :: dropNl rest) = true :=
        (begWith_cons '\n').mpr ⟨rfl, h2⟩
      have hfalse := hznl ('\n' :: dropNl rest) (List.suffix_refl _)
      simp [hz1] at hfalse
    · exact ih (noOcc_suffix hz ((dropNl_sfx rest).trans
        ((List.suffix_cons d rest).trans (List.suffix_cons c (d :: rest))))) s h
  | case4 c d rest hc ih =>
    intro s hs
    rw [show collapse (c :: d :: rest) = c :: collapse (d :: rest) by
      rw [collapse]; simp [hc]] at hs
    rcases List.suffix_cons_iff.mp hs with h | h
    · subst h
      by_contra hne
      have hb : begWith ('\n' :: m) (c :: collapse (d :: rest)) = true := by simpa using hne
      have h1 := (begWith_cons (m := m) c).mp hb
      have h2 := begWith_collapse (d :: rest) m hm h1.2
      have hz1 : begWith ('\n' :: m) (c :: d :: rest) = true :=
        (begWith_cons c).mpr ⟨h1.1, h2⟩
      have hfalse := hz (c :: d :: rest) (List.suffix_refl _)
      simp [hz1] at hfalse
    · exact ih (noOcc_suffix hz (List.suffix_cons c (d :: rest))) s h

/-- If no three consecutive newlines occur, `collapse` is the identity. -/
theorem collapse_id (z : Str) (hz : noOcc (fun s => begWith nlnlnl s) z) :
    collapse z = z := by
  induction z using collapse.induct with
  | case1 => simp [collapse]
  | case2 c => simp [collapse]
  | case3 c d rest hc ih =>
    have hrest : ∀ e r, rest = e :: r → e ≠ '\n' := by
      intro e r hre hen
      have hb : begWith nlnlnl (c :: d :: rest) = true := by
        rw [hre, hc.1, hc.2, hen]
        simp [nlnlnl, begWith]
      have hfalse := hz (c :: d :: rest) (List.suffix_refl _)
      simp [hb] at hfalse
    have hdrop : dropNl rest = rest := dropNl_id hrest
    rw [show collapse (c :: d :: rest) = '\n' :: '\n' :: collapse (dropNl rest) by
      rw [collapse]; simp [hc]]
    rw [hdrop] at ih
    rw [hdrop]
    rw [ih (noOcc_suffix hz
      ((List.suffix_cons d rest).trans (List.suffix_cons c (d :: rest))))]
    rw [hc.1, hc.2]
  | case4 c d rest hc ih =>
    rw [show collapse (c :: d :: rest) = c :: collapse (d :: rest) by
      rw [collapse]; simp [hc]]
    rw [ih (noOcc_suffix hz (List.suffix_cons c (d :: rest)))]

/-! ## Lemmas about `pyStrip` -/

theorem dropWs_sfx (l : Str) : dropWs l <:+ l := by
  induction l with
  | nil => simp [dropWs]
  | cons c rest ih =>
    simp only [dropWs]
    split
    · exact ih.trans (List.suffix_cons c rest)
    · exact List.suffix_refl _

theorem dropWs_length_le (l : Str) : (dropWs l).length ≤ l.length :=
  (dropWs_sfx l).length_le

theorem dropWs_dropWs (l : Str) : dropWs (dropWs l) = dropWs l := by
  induction l with
  | nil => simp [dropWs]
  | cons c rest ih =>
    simp only [dropWs]
    split
    · exact ih
    · rename_i hc
      simp [dropWs, hc]

theorem dropWs_id_iff (l : Str) :
    dropWs l = l ↔ ∀ c r, l = c :: r → pyWS c = false := by
  constructor
  · intro h c r hl
    subst hl
    by_contra hws
    have hws' : pyWS c = true := by simpa using hws
    rw [show dropWs (c :: r) = dropWs r by simp [dropWs, hws']] at h
    have := dropWs_length_le r
    have : (dropWs r).length < (c :: r).length := by
      simpa using Nat.lt_succ_of_le this
    rw [h] at this
    exact absurd this (by simp)
  · intro h
    cases l with
    | nil => simp [dropWs]
    | cons c rest => simp [dropWs, h c rest rfl]

theorem dropWs_id_of_pfx {l' l : Str} (hp : l' <+: l) (h : dropWs l = l) :
    dropWs l' = l' := by
  rw [dropWs_id_iff] at h ⊢
  intro c r hl
  subst hl
  cases l with
  | nil => simp at hp
  | cons d rest =>
    rw [List.cons_prefix_cons] at hp
    exact hp.1 ▸ h d rest rfl

theorem pyStrip_pfx (l : Str) : pyStrip l <+: dropWs l := by
  unfold pyStrip
  have h1 : dropWs ((dropWs l).reverse) <:+ (dropWs l).reverse := dropWs_sfx _
  have h2 := List.reverse_prefix.mpr h1
  simpa using h2

theorem noOcc_pyStrip {p : Str → Bool} (hm : PrefMono p) {l : Str} (h : noOcc p l) :
    noOcc p (pyStrip l) :=
  noOcc_of_pfx hm (noOcc_suffix h (dropWs_sfx l)) (pyStrip_pfx l)

theorem pyStrip_idem (l : Str) : pyStrip (pyStrip l) = pyStrip l := by
  have hy : dropWs (pyStrip l) = pyStrip l :=
    dropWs_id_of_pfx (pyStrip_pfx l) (dropWs_dropWs l)
  show pyStrip (pyStrip l) = pyStrip l
  unfold pyStrip at hy ⊢
  rw [hy]
  rw [List.reverse_reverse, dropWs_dropWs]

/-! ## The cleaned-text invariant and idempotence -/

/-- The substitution/normalisation pipeline of `clean_email_text` without the
empty guard and the length gate. -/
def cleanCore (l : Str) : Str :=
  pyStrip (collapse (subTrunc (fun s => begWith nlThanks s)
    (subTrunc (fun s => begWith nlBest s) (sub2 (subTrunc sig1Head l)))))

theorem clean_eq (l : Str) :
    clean_email_text l =
      if l = [] then []
      else if (cleanCore l).length < 50 then [] else cleanCore l := rfl

/-- `Cleaned y` collects everything that holds of a non-empty output of
`clean_email_text`: no pattern occurrence is left, no triple newline is left,
the text is stripped, and it has at least 50 characters. -/
def Cleaned (y : Str) : Prop :=
  noOcc sig1Head y ∧
  noOcc (fun s => begWith nlSent s) y ∧
  noOcc (fun s => begWith nlBest s) y ∧
  noOcc (fun s => begWith nlThanks s) y ∧
  noOcc (fun s => begWith nlnlnl s) y ∧
  pyStrip y = y ∧
  50 ≤ y.length

theorem cleanCore_cleaned (l : Str) :
    noOcc sig1Head (cleanCore l) ∧
    noOcc (fun s => begWith nlSent s) (cleanCore l) ∧
    noOcc (fun s => begWith nlBest s) (cleanCore l) ∧
    noOcc (fun s => begWith nlThanks s) (cleanCore l) ∧
    noOcc (fun s => begWith nlnlnl s) (cleanCore l) ∧
    pyStrip (cleanCore l) = cleanCore l := by
  have h1a : noOcc sig1Head (subTrunc sig1Head l) :=
    subTrunc_free prefMono_sig1 (by rfl) l
  set t1 := subTrunc sig1Head l with ht1
  have h2a : noOcc sig1Head (sub2 t1) := sub2_pres_sig1 t1 h1a
  have h2b : noOcc (fun s => begWith nlSent s) (sub2 t1) := sub2_free t1
  set t2 := sub2 t1 with ht2
  have hpfx3 : subTrunc (fun s => begWith nlBest s) t2 <+: t2 := subTrunc_pfx _ t2
  have h3a : noOcc sig1Head (subTrunc (fun s => begWith nlBest s) t2) :=
    noOcc_of_pfx prefMono_sig1 h2a hpfx3
  have h3b : noOcc (fun s => begWith nlSent s) (subTrunc (fun s => begWith nlBest s) t2) :=
    noOcc_of_pfx (prefMono_begWith nlSent) h2b hpfx3
  have h3c : noOcc (fun s => begWith nlBest s) (subTrunc (fun s => begWith nlBest s) t2) :=
    subTrunc_free (prefMono_begWith nlBest) (by rfl) t2
  set t3 := subTrunc (fun s => begWith nlBest s) t2 with ht3
  have hpfx4 : subTrunc (fun s => begWith nlThanks s) t3 <+: t3 := subTrunc_pfx _ t3
  have h4a : noOcc sig1Head (subTrunc (fun s => begWith nlThanks s) t3) :=
    noOcc_of_pfx prefMono_sig1 h3a hpfx4
  have h4b : noOcc (fun s => begWith nlSent s) (subTrunc (fun s => begWith nlThanks s) t3) :=
    noOcc_of_pfx (prefMono_begWith nlSent) h3b hpfx4
  have h4c : noOcc (fun s => begWith nlBest s) (subTrunc (fun s => begWith nlThanks s) t3) :=
    noOcc_of_pfx (prefMono_begWith nlBest) h3c hpfx4
  have h4d : noOcc (fun s => begWith nlThanks s) (subTrunc (fun s => begWith nlThanks s) t3) :=
    subTrunc_free (prefMono_begWith nlThanks) (by rfl) t3
  set t4 := subTrunc (fun s => begWith nlThanks s) t3 with ht4
  have h5a : noOcc sig1Head (collapse t4) := collapse_pres_sig1 t4 h4a
  have h5b : noOcc (fun s => begWith nlSent s) (collapse t4) :=
    collapse_pres_marker sentTail nlSent_not_nl t4 h4b
  have h5c : noOcc (fun s => begWith nlBest s) (collapse t4) :=
    collapse_pres_marker ("Best regards".toList) nlBest_tail_not_nl t4 h4c
  have h5d : noOcc (fun s => begWith nlThanks s) (collapse t4) :=
    collapse_pres_marker ("Thanks,".toList) nlThanks_tail_not_nl t4 h4d
  have h5e : noOcc (fun s => begWith nlnlnl s) (collapse t4) := collapse_no_triple t4
  set t5 := collapse t4 with ht5
  refine ⟨noOcc_pyStrip prefMono_sig1 h5a,
    noOcc_pyStrip (prefMono_begWith nlSent) h5b,
    noOcc_pyStrip (prefMono_begWith nlBest) h5c,
    noOcc_pyStrip (prefMono_begWith nlThanks) h5d,
    noOcc_pyStrip (prefMono_begWith nlnlnl) h5e,
    pyStrip_idem t5⟩

theorem clean_fixed {y : Str} (h : Cleaned y) : clean_email_text y = y := by
  obtain ⟨h1, h2, h3, h4, h5, h6, h7⟩ := h
  have hne : y ≠ [] := by
    intro hy
    rw [hy] at h7
    simp at h7
  rw [clean_eq]
  rw [if_neg hne]
  have e1 : subTrunc sig1Head y = y := subTrunc_id h1
  have e3 : subTrunc (fun s => begWith nlBest s) y = y := subTrunc_id h3
  have e4 : subTrunc (fun s => begWith nlThanks s) y = y := subTrunc_id h4
  have e2 : sub2 y = y := sub2_id y h2
  have e5 : collapse y = y := collapse_id y h5
  have ecore : cleanCore y = y := by
    unfold cleanCore
    rw [e1, e2, e3, e4, e5, h6]
  rw [ecore, if_neg (by omega)]

theorem clean_output_cleaned (l : Str) (hne : clean_email_text l ≠ []) :
    Cleaned (clean_email_text l) := by
  rw [clean_eq] at hne ⊢
  by_cases hl : l = []
  · simp [hl] at hne
  · rw [if_neg hl] at hne ⊢
    by_cases hlen : (cleanCore l).length < 50
    · simp [hlen] at hne
    · rw [if_neg hlen]
      obtain ⟨c1, c2, c3, c4, c5, c6⟩ := cleanCore_cleaned l
      exact ⟨c1, c2, c3, c4, c5, c6, by omega⟩

/-! ## Length invariant of cleaning -/

theorem clean_length (l : Str) :
    clean_email_text l = [] ∨ 50 ≤ (clean_email_text l).length := by
  rw [clean_eq]
  by_cases h : l = []
  · simp [h]
  · rw [if_neg h]
    by_cases h5 : (cleanCore l).length < 50
    · simp [h5]
    · rw [if_neg h5]
      right
      omega

theorem cleanOpt_length (t : Option Str) :
    cleanOpt t = [] ∨ 50 ≤ (cleanOpt t).length := by
  cases t with
  | none => simp [cleanOpt]
  | some s => exact clean_length s

theorem create_output_min (emails : List Email) (exs : List TrainingExample)
    (h : create_training_examples emails = .ok exs) :
    ∀ ex ∈ exs, 50 ≤ ex.output.length := by
  induction emails generalizing exs with
  | nil =>
    simp only [create_training_examples] at h
    cases h
    simp
  | cons e rest ih =>
    simp only [create_training_examples] at h
    by_cases ht : cleanOpt e.text_plain = []
    · rw [if_pos ht] at h
      exact ih exs h
    · rw [if_neg ht] at h
      cases hsubj : e.subject with
      | none =>
        rw [hsubj] at h
        cases h
      | some subj =>
        rw [hsubj] at h
        cases hrest : create_training_examples rest with
        | error u =>
          rw [hrest] at h
          cases h
        | ok exs2 =>
          rw [hrest] at h
          cases h
          intro x hx
          rcases List.mem_cons.mp hx with hx | hx
          · subst hx
            simp only [mkExample]
            rcases cleanOpt_length e.text_plain with h0 | h0
            · exact absurd h0 ht
            · exact h0
          · exact ih exs2 hrest x hx

/-! ## Equivalence of `sub2` with its line-based specification -/

/-- The current line: characters up to (not including) the next newline. -/
def takeLine : Str → Str
  | [] => []
  | c :: rest => if c = '\n' then [] else c :: takeLine rest

theorem splitNl_ne_nil (l : Str) : splitNl l ≠ [] := by
  cases l with
  | nil => simp [splitNl]
  | cons c rest =>
    simp only [splitNl]
    split
    · simp
    · split <;> simp

theorem takeLine_all {l : Str} (h : dropLine l = []) : takeLine l = l := by
  induction l with
  | nil => simp [takeLine]
  | cons c rest ih =>
    simp only [dropLine] at h
    split at h
    · simp at h
    · rename_i hc
      simp only [takeLine, if_neg hc, List.cons.injEq, true_and]
      exact ih h

theorem splitNl_decomp (r : Str) :
    (dropLine r = [] ∧ splitNl r = [r]) ∨
      (∃ B, dropLine r = '\n' :: B ∧ splitNl r = takeLine r :: splitNl B) := by
  induction r with
  | nil => exact Or.inl ⟨by simp [dropLine], by simp [splitNl]⟩
  | cons c rest ih =>
    by_cases hc : c = '\n'
    · refine Or.inr ⟨rest, ?_, ?_⟩
      · simp [dropLine, hc]
      · simp [splitNl, takeLine, hc]
    · rcases ih with ⟨h1, h2⟩ | ⟨B, h1, h2⟩
      · refine Or.inl ⟨by simp [dropLine, hc, h1], ?_⟩
        rw [show splitNl (c :: rest) = (c :: (splitNl rest).headI) :: (splitNl rest).tail by
          simp only [splitNl, if_neg hc]
          cases hsp : splitNl rest with
          | nil => exact absurd hsp (splitNl_ne_nil rest)
          | cons a as => simp]
        rw [h2]
        simp
      · refine Or.inr ⟨B, by simp [dropLine, hc, h1], ?_⟩
        rw [show splitNl (c :: rest) = (c :: (splitNl rest).headI) :: (splitNl rest).tail by
          simp only [splitNl, if_neg hc]
          cases hsp : splitNl rest with
          | nil => exact absurd hsp (splitNl_ne_nil rest)
          | cons a as => simp]
        rw [h2]
        simp [takeLine, hc]

theorem splitNl_head_takeLine (r : Str) :
    ∃ tail, splitNl r = takeLine r :: tail := by
  rcases splitNl_decomp r with ⟨h1, h2⟩ | ⟨B, h1, h2⟩
  · exact ⟨[], by rw [h2, takeLine_all h1]⟩
  · exact ⟨splitNl B, h2⟩

theorem begWith_takeLine {m : Str} (hm : '\n' ∉ m) (l : Str) :
    begWith m (takeLine l) = begWith m l := by
  induction m generalizing l with
  | nil => simp [begWith]
  | cons c m' ih =>
    have hc : c ≠ '\n' := fun h => hm (by simp [h])
    cases l with
    | nil => simp [takeLine]
    | cons d r =>
      by_cases hd : d = '\n'
      · have h1 : takeLine (d :: r) = [] := by simp [takeLine, hd]
        rw [h1]
        have h2 : begWith (c :: m') (d :: r) = false := by
          rw [hd]
          simp only [begWith]
          split
          · rename_i hcd
            exact absurd hcd hc
          · rfl
        rw [h2]
        simp [begWith]
      · have h1 : takeLine (d :: r) = d :: takeLine r := by simp [takeLine, hd]
        rw [h1]
        simp only [begWith]
        split
        · exact ih (fun h => hm (by simp [h])) r
        · rfl

theorem joinNl_cons_head (c : Char) (l : Str) (ls : List Str) :
    joinNl ((c :: l) :: ls) = c :: joinNl (l :: ls) := by
  cases ls with
  | nil => simp [joinNl]
  | cons a as => simp [joinNl]

theorem joinNl_nil_cons (l : Str) (ls : List Str) :
    joinNl ([] :: l :: ls) = '\n' :: joinNl (l :: ls) := by
  simp [joinNl]

theorem begWith_dropLine {m : Str} (hm : '\n' ∉ m) :
    ∀ r : Str, begWith m r = true → dropLine (r.drop m.length) = dropLine r := by
  induction m with
  | nil => simp
  | cons d m' ih =>
    intro r hb
    cases r with
    | nil => simp [begWith] at hb
    | cons e r' =>
      have h1 := (begWith_cons (m := m') e).mp hb
      have hd : d ≠ '\n' := fun h => hm (by simp [h])
      have he : e ≠ '\n' := by rw [← h1.1]; exact hd
      have h2 : dropLine (e :: r') = dropLine r' := by simp [dropLine, he]
      rw [show (e :: r').drop (d :: m').length = r'.drop m'.length by simp]
      rw [h2]
      exact ih (fun h => hm (by simp [h])) r' h1.2

theorem specSub2_eq (l : Str) (first : Str) (rest : List Str)
    (h : splitNl l = first :: rest) :
    specSub2 l = joinNl (first :: rest.filter fun ln => !begWith sentTail ln) := by
  unfold specSub2
  rw [h]

/-- `sub2` computes the line-based specification: drop every line after the
first that begins with `Sent from my `. -/
theorem sub2_eq_specSub2 (z : Str) : sub2 z = specSub2 z := by
  induction z using sub2.induct with
  | case1 =>
    simp [sub2, specSub2, splitNl, joinNl]
  | case2 c r hbeg ih =>
    have h1 := (begWith_cons (m := sentTail) c).mp (by simpa [nlSent] using hbeg)
    have hc : c = '\n' := h1.1.symm
    have hrem : dropLine ((c :: r).drop nlSent.length) = dropLine r := by
      rw [show (c :: r).drop nlSent.length = r.drop sentTail.length by simp [nlSent]]
      exact begWith_dropLine nlSent_not_nl r h1.2
    rw [show sub2 (c :: r) = sub2 (dropLine ((c :: r).drop nlSent.length)) by
      rw [sub2]; simp [hbeg]]
    rw [hrem] at ih ⊢
    have hsplit : splitNl (c :: r) = [] :: splitNl r := by
      rw [hc]; simp [splitNl]
    rcases splitNl_decomp r with ⟨hd1, hd2⟩ | ⟨B, hd1, hd2⟩
    · rw [hd1]
      rw [show sub2 [] = [] by rw [sub2]]
      rw [specSub2_eq (c :: r) [] (splitNl r) hsplit]
      rw [hd2]
      simp [h1.2, joinNl]
    · rw [hd1] at ih
      rw [hd1, ih]
      rw [specSub2_eq (c :: r) [] (splitNl r) hsplit]
      rw [specSub2_eq ('\n' :: B) [] (splitNl B) (by simp [splitNl])]
      rw [hd2]
      have hq : begWith sentTail (takeLine r) = true := by
        rw [begWith_takeLine nlSent_not_nl]
        exact h1.2
      simp [hq]
  | case3 c r hbeg ih =>
    rw [show sub2 (c :: r) = c :: sub2 r by rw [sub2]; simp [hbeg]]
    by_cases hc : c = '\n'
    · have hnb : begWith sentTail r = false := by
        by_contra hb
        have hb' : begWith sentTail r = true := by simpa using hb
        have : begWith nlSent (c :: r) = true := by
          rw [show nlSent = '\n' :: sentTail from rfl]
          exact (begWith_cons c).mpr ⟨hc.symm, hb'⟩
        exact hbeg this
      obtain ⟨tail, htail⟩ := splitNl_head_takeLine r
      have hsplit : splitNl (c :: r) = [] :: splitNl r := by
        rw [hc]; simp [splitNl]
      have hq : begWith sentTail (takeLine r) = false := by
        rw [begWith_takeLine nlSent_not_nl]
        exact hnb
      have hstep : specSub2 (c :: r) = '\n' :: specSub2 r := by
        rw [specSub2_eq (c :: r) [] (splitNl r) hsplit]
        rw [specSub2_eq r (takeLine r) tail htail]
        rw [htail]
        simp only [List.filter_cons, hq, Bool.not_false, if_true]
        exact joinNl_nil_cons _ _
      rw [hstep, ih, hc]
    · cases hsp : splitNl r with
      | nil => exact absurd hsp (splitNl_ne_nil r)
      | cons L1 Ls =>
        have hsplit : splitNl (c :: r) = (c :: L1) :: Ls := by
          simp only [splitNl, if_neg hc, hsp]
        have hstep : specSub2 (c :: r) = c :: specSub2 r := by
          rw [specSub2_eq (c :: r) (c :: L1) Ls hsplit]
          rw [specSub2_eq r L1 Ls hsp]
          exact joinNl_cons_head c L1 (Ls.filter _)
        rw [hstep, ih]

/-! ## Structural (fuelled) evaluators

`sub2` and `collapse` are defined by well-founded recursion, which the kernel
cannot unfold during `decide`.  The fuelled versions below are structurally
recursive and provably equal, so concrete inputs can be evaluated.
-/

def sub2F : Nat → Str → Str
  | 0, _ => []
  | _ + 1, [] => []
  | fuel + 1, c :: rest =>
    if begWith nlSent (c :: rest) then
      sub2F fuel (dropLine ((c :: rest).drop nlSent.length))
    else
      c :: sub2F fuel rest

theorem sub2F_eq_sub2 (fuel : Nat) : ∀ l : Str, l.length ≤ fuel → sub2F fuel l = sub2 l := by
  induction fuel with
  | zero =>
    intro l h
    rw [List.length_eq_zero.mp (Nat.le_zero.mp h)]
    rw [show sub2 [] = [] by rw [sub2]]
    rfl
  | succ n ih =>
    intro l h
    cases l with
    | nil =>
      rw [show sub2 [] = [] by rw [sub2]]
      rfl
    | cons c rest =>
      by_cases hb : begWith nlSent (c :: rest) = true
      · rw [show sub2 (c :: rest) = sub2 (dropLine ((c :: rest).drop nlSent.length)) by
          rw [sub2]; simp [hb]]
        rw [show sub2F (n + 1) (c :: rest) =
            sub2F n (dropLine ((c :: rest).drop nlSent.length)) by
          simp [sub2F, hb]]
        refine ih _ ?_
        have := sub2_dec hb
        simp only [List.length_cons] at this h
        omega
      · rw [show sub2 (c :: rest) = c :: sub2 rest by rw [sub2]; simp [hb]]
        rw [show sub2F (n + 1) (c :: rest) = c :: sub2F n rest by simp [sub2F, hb]]
        rw [ih rest (by simp at h; omega)]

theorem sub2_eq_fuel (l : Str) : sub2 l = sub2F l.length l :=
  (sub2F_eq_sub2 l.length l (Nat.le_refl _)).symm

def collapseF : Nat → Str → Str
  | 0, _ => []
  | _ + 1, [] => []
  | _ + 1, [c] => [c]
  | fuel + 1, c :: d :: rest =>
    if c = '\n' ∧ d = '\n' then
      '\n' :: '\n' :: collapseF fuel (dropNl rest)
    else
      c :: collapseF fuel (d :: rest)

theorem collapseF_eq_collapse (fuel : Nat) :
    ∀ l : Str, l.length ≤ fuel → collapseF fuel l = collapse l := by
  induction fuel with
  | zero =>
    intro l h
    rw [List.length_eq_zero.mp (Nat.le_zero.mp h)]
    rw [show collapse [] = [] by rw [collapse]]
    rfl
  | succ n ih =>
    intro l h
    match l with
    | [] =>
      rw [show collapse [] = [] by rw [collapse]]
      rfl
    | [c] =>
      rw [show collapse [c] = [c] by rw [collapse]]
      rfl
    | c :: d :: rest =>
      by_cases hc : c = '\n' ∧ d = '\n'
      · rw [show collapse (c :: d :: rest) = '\n' :: '\n' :: collapse (dropNl rest) by
          rw [collapse]; simp [hc]]
        rw [show collapseF (n + 1) (c :: d :: rest) =
            '\n' :: '\n' :: collapseF n (dropNl rest) by simp [collapseF, hc]]
        have hlen := dropNl_length_le rest
        simp only [List.length_cons] at h
        rw [ih (dropNl rest) (by omega)]
      · rw [show collapse (c :: d :: rest) = c :: collapse (d :: rest) by
          rw [collapse]; simp [hc]]
        rw [show collapseF (n + 1) (c :: d :: rest) = c :: collapseF n (d :: rest) by
          simp [collapseF, hc]]
        simp only [List.length_cons] at h
        rw [ih (d :: rest) (by simp; omega)]

theorem collapse_eq_fuel (l : Str) : collapse l = collapseF l.length l :=
  (collapseF_eq_collapse l.length l (Nat.le_refl _)).symm

/-- Structural evaluator for `clean_email_text`. -/
def cleanF (l : Str) : Str :=
  if l = [] then []
  else
    let t1 := subTrunc sig1Head l
    let t2 := sub2F t1.length t1
    let t3 := subTrunc (fun s => begWith nlBest s) t2
    let t4 := subTrunc (fun s => begWith nlThanks s) t3
    let t6 := pyStrip (collapseF t4.length t4)
    if t6.length < 50 then [] else t6

theorem clean_eq_cleanF (l : Str) : clean_email_text l = cleanF l := by
  rw [clean_eq]
  simp only [cleanF, cleanCore]
  rw [← sub2_eq_fuel, ← collapse_eq_fuel]

/-- Structural evaluator for `cleanOpt`. -/
def cleanOptF : Option Str → Str
  | none => []
  | some s => cleanF s

theorem cleanOpt_eq_cleanOptF (t : Option Str) : cleanOpt t = cleanOptF t := by
  cases t with
  | none => rfl
  | some s => exact clean_eq_cleanF s

/-- Structural evaluator for `create_training_examples`. -/
def createF : List Email → Except Unit (List TrainingExample)
  | [] => .ok []
  | e :: rest =>
    let text := cleanOptF e.text_plain
    if text = [] then createF rest
    else
      match e.subject with
      | none => .error ()
      | some subj =>
        match createF rest with
        | .error u => .error u
        | .ok exs => .ok (mkExample e subj text :: exs)

theorem create_eq_createF (emails : List Email) :
    create_training_examples emails = createF emails := by
  induction emails with
  | nil => rfl
  | cons e rest ih =>
    simp only [create_training_examples, createF, cleanOpt_eq_cleanOptF, ih]

/-! ## Claim theorems C1–C3 -/

/-- Concrete input separating `clean_email_text` from claim C1's description:
a `Sent from my` line in the middle of long text. -/
def c1In : Str :=
  (String.mk (List.replicate 50 'a') ++ "\nSent from my iPhone\n" ++
    String.mk (List.replicate 50 'b')).toList

set_option maxRecDepth 40000 in
/-- C1 counterexample: the claim says all four markers remove everything from
the match point to the end of the text, but for `Sent from my` the code
(no DOTALL flag) removes only to the end of the matched line: on `c1In` the
code keeps the 50 `b`s after the `Sent from my iPhone` line, while the
claim's reading discards them. -/
theorem c1_counterexample : clean_email_text c1In ≠ specCleanC1 c1In := by
  rw [clean_eq_cleanF]
  simp only [specCleanC1]
  rw [collapse_eq_fuel]
  decide

/-- C1 (amended): `clean_email_text` removes each matched sign-off marker
from its match point, where the `--` delimiter line, `Best regards` and
`Thanks,` markers (each preceded by a newline) remove to the end of the text,
while a line beginning with `Sent from my ` is removed only to the end of
that line; it then collapses newline runs, strips the ends, and returns empty
below 50 characters — i.e. it equals `specCleanAmended`. -/
theorem c1_clean_email_text_amended :
    ∀ l : Str, clean_email_text l = specCleanAmended l := by
  intro l
  rw [clean_eq]
  have hspec : specCleanAmended l =
      (if (cleanCore l).length < 50 then [] else cleanCore l) := by
    simp only [specCleanAmended]
    rw [← subTrunc_eq_specTrunc sig1Head l,
      ← sub2_eq_specSub2 (subTrunc sig1Head l),
      ← subTrunc_eq_specTrunc (fun s => begWith nlBest s) (sub2 (subTrunc sig1Head l)),
      ← subTrunc_eq_specTrunc (fun s => begWith nlThanks s)
        (subTrunc (fun s => begWith nlBest s) (sub2 (subTrunc sig1Head l)))]
    simp only [cleanCore]
  rw [hspec]
  by_cases hl : l = []
  · subst hl
    rw [if_pos rfl]
    have hcc : cleanCore [] = [] := by
      unfold cleanCore
      rw [sub2_eq_fuel, collapse_eq_fuel]
      decide
    rw [hcc]
    decide
  · rw [if_neg hl]

/-- C2: cleaning returns the empty string or a string of at least 50
characters, and every emitted training example's output has at least 50
characters. -/
theorem c2_output_length_invariant :
    (∀ l : Str, clean_email_text l = [] ∨ 50 ≤ (clean_email_text l).length) ∧
      (∀ (emails : List Email) (exs : List TrainingExample),
        create_training_examples emails = .ok exs →
          ∀ ex ∈ exs, 50 ≤ ex.output.length) :=
  ⟨clean_length, create_output_min⟩

/-- Email record used by the C2 witness. -/
def c2Email : Email :=
  { id := none
    subject := some "Status".toList
    text_plain := some (String.mk (List.replicate 60 'x')).toList
    text_html := none
    snippet := none
    sent_at := none
    from_email := none
    to_email := none }

/-- The training example produced for `c2Email`. -/
def c2Ex : TrainingExample :=
  { instruction := ("Write a professional email about: Status").toList
    input := []
    output := (String.mk (List.replicate 60 'x')).toList
    metadata :=
      { email_id := none
        subject := "Status".toList
        sent_at := "None".toList
        «from» := none
        «to» := none } }

set_option maxRecDepth 40000 in
theorem c2_witness : 50 ≤ c2Ex.output.length :=
  c2_output_length_invariant.2 [c2Email] [c2Ex]
    (by rw [create_eq_createF]; rfl) c2Ex (by simp)

/-- C3: cleaning is idempotent — cleaning an already-cleaned text changes
nothing, because the output of `clean_email_text` contains no remaining
pattern occurrence, no newline run, and no surrounding whitespace. -/
theorem c3_clean_idempotent :
    ∀ l : Str, clean_email_text (clean_email_text l) = clean_email_text l := by
  intro l
  by_cases h : clean_email_text l = []
  · rw [h]
    rw [clean_eq]
    simp
  · exact clean_fixed (clean_output_cleaned l h)

/-! ## Claim theorems C4–C7 -/

/-- A record with a NULL subject but a body that survives cleaning. -/
def c4Email : Email :=
  { id := none
    subject := none
    text_plain := some (String.mk (List.replicate 60 'y')).toList
    text_html := none
    snippet := none
    sent_at := none
    from_email := none
    to_email := none }

set_option maxRecDepth 40000 in
/-- C4 counterexample: `create_training_examples` does raise for some field
values — a record whose subject is `None` (SQL NULL) and whose body survives
cleaning reaches `extract_context`, where `None.startswith` raises
`AttributeError` and aborts the batch. -/
theorem c4_counterexample : create_training_examples [c4Email] = .error () := by
  rw [create_eq_createF]
  rfl

/-- C4 (amended): a record with an empty or missing body is skipped locally
without aborting the batch, and provided every record's subject is a string
(not NULL), `create_training_examples` never raises and produces at most one
example per record, so the result is no longer than the input. -/
theorem c4_create_training_examples_amended :
    (∀ (e : Email) (rest : List Email), cleanOpt e.text_plain = [] →
        create_training_examples (e :: rest) = create_training_examples rest) ∧
      (∀ emails : List Email, (∀ e ∈ emails, e.subject ≠ none) →
        ∃ exs, create_training_examples emails = .ok exs ∧
          exs.length ≤ emails.length) := by
  constructor
  · intro e rest h
    simp only [create_training_examples, h, if_pos]
  · intro emails hsubj
    induction emails with
    | nil => exact ⟨[], rfl, by simp⟩
    | cons e rest ih =>
      obtain ⟨exs2, hok, hlen⟩ := ih fun e2 he2 => hsubj e2 (List.mem_cons_of_mem e he2)
      by_cases ht : cleanOpt e.text_plain = []
      · refine ⟨exs2, ?_, ?_⟩
        · simp only [create_training_examples, ht, if_pos]
          exact hok
        · simp only [List.length_cons]
          omega
      · cases hs : e.subject with
        | none => exact absurd hs (hsubj e (List.mem_cons_self e rest))
        | some subj =>
          refine ⟨mkExample e subj (cleanOpt e.text_plain) :: exs2, ?_, ?_⟩
          · simp only [create_training_examples, if_neg ht, hs, hok]
          · simp only [List.length_cons]
            omega

/-- Record with a string subject and valid body, for the C4 witness. -/
def c4EmailOk : Email :=
  { id := none
    subject := some "Weekly report".toList
    text_plain := some (String.mk (List.replicate 55 'z')).toList
    text_html := none
    snippet := none
    sent_at := none
    from_email := none
    to_email := none }

theorem c4_witness :
    ∃ exs, create_training_examples [c4EmailOk] = .ok exs ∧ exs.length ≤ 1 :=
  c4_create_training_examples_amended.2 [c4EmailOk] (by
    intro e he
    rw [List.mem_singleton.mp he]
    simp [c4EmailOk])

/-- C5: `extract_context` returns `Previous email subject: ` followed by the
subject minus its first four characters exactly when the subject starts with
`Re: ` or `RE: ` (and `None`, not an empty string, otherwise), and assembly
composes the reply-form instruction with the context, the plain form without
it; for subject `Re: Project Update` the instruction contains both quoted
fragments of Scenario 1. -/
theorem c5_extract_context_and_instruction :
    (∀ s : Str, extract_context_str s =
        if begWith "Re: ".toList s || begWith "RE: ".toList s then
          some ("Previous email subject: ".toList ++ s.drop 4)
        else none) ∧
      (∀ (e : Email) (s : Str), e.subject = some s →
        extract_context e = .ok (extract_context_str s)) ∧
      (∀ (e : Email) (s : Str) (rest : List Email) (exs : List TrainingExample),
        e.subject = some s → create_training_examples (e :: rest) = .ok exs →
        cleanOpt e.text_plain ≠ [] →
        ∃ ex exs2, exs = ex :: exs2 ∧
          ex.instruction =
            (if ctxIsReply s then
              "Write a professional email reply about: ".toList ++ s ++
                "\n\nContext: ".toList ++
                  ("Previous email subject: ".toList ++ s.drop 4)
            else "Write a professional email about: ".toList ++ s)) := by
  refine ⟨fun s => rfl, ?_, ?_⟩
  · intro e s hs
    simp [extract_context, hs]
  · intro e s rest exs hs hok ht
    simp only [create_training_examples, if_neg ht, hs] at hok
    cases hrest : create_training_examples rest with
    | error u =>
      rw [hrest] at hok
      cases hok
    | ok exs2 =>
      rw [hrest] at hok
      cases hok
      refine ⟨_, exs2, rfl, ?_⟩
      by_cases hr : ctxIsReply s = true
      · have hx : extract_context_str s =
            some ("Previous email subject: ".toList ++ s.drop 4) := by
          simp [extract_context_str, hr]
        rw [if_pos hr]
        simp [mkExample, mkInstruction, hx]
      · have hx : extract_context_str s = none := by
          simp [extract_context_str, hr]
        rw [if_neg hr]
        simp [mkExample, mkInstruction, hx]

/-- Scenario 1 email: subject `Re: Project Update`, body of 80 characters. -/
def c5Email : Email :=
  { id := none
    subject := some "Re: Project Update".toList
    text_plain := some (String.mk (List.replicate 80 'w')).toList
    text_html := none
    snippet := none
    sent_at := none
    from_email := none
    to_email := none }

/-- The training example produced for `c5Email`. -/
def c5Ex : TrainingExample :=
  mkExample c5Email "Re: Project Update".toList
    (String.mk (List.replicate 80 'w')).toList

set_option maxRecDepth 40000 in
theorem c5_witness :
    ∃ ex exs2, ([c5Ex] : List TrainingExample) = ex :: exs2 ∧
      ex.instruction =
        (if ctxIsReply "Re: Project Update".toList then
          "Write a professional email reply about: ".toList ++
            "Re: Project Update".toList ++ "\n\nContext: ".toList ++
              ("Previous email subject: ".toList ++
                "Re: Project Update".toList.drop 4)
        else "Write a professional email about: ".toList ++
          "Re: Project Update".toList) :=
  c5_extract_context_and_instruction.2.2 c5Email "Re: Project Update".toList
    [] [c5Ex] rfl
    (by rw [create_eq_createF]; rfl)
    (by rw [cleanOpt_eq_cleanOptF]; decide)

/-- C7: the run exits non-zero (writing nothing) when the connection fails,
when the fetched count is below the minimum, and when no valid example is
produced (the empty-result check, or an error during example creation —
either way zero examples exist); otherwise it writes the output files for the
selected format and exits zero. -/
theorem c7_mainRun_exit (connOk : Bool) (fetched : List Email) (minEmails : Nat)
    (fmt : OutFormat) :
    (connOk = false → (mainRun connOk fetched minEmails fmt).exitCode ≠ 0 ∧
      (mainRun connOk fetched minEmails fmt).filesWritten = []) ∧
    (fetched.length < minEmails → (mainRun connOk fetched minEmails fmt).exitCode ≠ 0 ∧
      (mainRun connOk fetched minEmails fmt).filesWritten = []) ∧
    (create_training_examples fetched = .ok [] →
      (mainRun connOk fetched minEmails fmt).exitCode ≠ 0 ∧
      (mainRun connOk fetched minEmails fmt).filesWritten = []) ∧
    (create_training_examples fetched = .error () →
      (mainRun connOk fetched minEmails fmt).exitCode ≠ 0 ∧
      (mainRun connOk fetched minEmails fmt).filesWritten = []) ∧
    (connOk = true → minEmails ≤ fetched.length →
      ∀ (ex : TrainingExample) (exs : List TrainingExample),
        create_training_examples fetched = .ok (ex :: exs) →
        (mainRun connOk fetched minEmails fmt).exitCode = 0 ∧
        (mainRun connOk fetched minEmails fmt).filesWritten = filesForFormat fmt ∧
        filesForFormat fmt ≠ []) := by
  refine ⟨?_, ?_, ?_, ?_, ?_⟩
  · intro h
    subst h
    simp [mainRun]
  · intro h
    by_cases hc : connOk = false
    · subst hc
      simp [mainRun]
    · have hc' : connOk = true := by
        cases connOk
        · exact absurd rfl hc
        · rfl
      subst hc'
      simp [mainRun, h]
  · intro h
    cases connOk
    · simp [mainRun]
    · by_cases hlt : fetched.length < minEmails
      · simp [mainRun, hlt]
      · simp [mainRun, hlt, h]
  · intro h
    cases connOk
    · simp [mainRun]
    · by_cases hlt : fetched.length < minEmails
      · simp [mainRun, hlt]
      · simp [mainRun, hlt, h]
  · intro hc hm ex exs hok
    subst hc
    have hlt : ¬fetched.length < minEmails := by omega
    refine ⟨?_, ?_, ?_⟩
    · simp [mainRun, hlt, hok]
    · simp [mainRun, hlt, hok]
    · cases fmt <;> simp [filesForFormat, filesForOne]

/-! ## Claim theorems C6–C10 -/

/-- C6: `split_dataset` on any shuffle of the examples cuts at
`int(len * train_ratio)` = the floor of the product: the train part has
exactly that many entries, the two parts partition the shuffled list
(nothing shared, nothing lost), and their concatenation is a permutation of
the original examples. -/
theorem c6_split_dataset {α : Type} (examples shuffled : List α) (r : ℚ)
    (_h0 : 0 ≤ r) (h1 : r ≤ 1) (hp : shuffled.Perm examples) :
    (split_dataset shuffled r).1.length = (⌊(examples.length : ℚ) * r⌋).toNat ∧
      (split_dataset shuffled r).1.length + (split_dataset shuffled r).2.length =
        examples.length ∧
      (split_dataset shuffled r).1 ++ (split_dataset shuffled r).2 = shuffled ∧
      ((split_dataset shuffled r).1 ++ (split_dataset shuffled r).2).Perm examples := by
  have hlen : shuffled.length = examples.length := hp.length_eq
  have hk : (⌊(shuffled.length : ℚ) * r⌋).toNat ≤ shuffled.length := by
    have hmul : (shuffled.length : ℚ) * r ≤ (shuffled.length : ℚ) :=
      mul_le_of_le_one_right (by positivity) h1
    have hfl : ⌊(shuffled.length : ℚ) * r⌋ ≤ (shuffled.length : Int) := by
      have := Int.floor_le_floor hmul
      rwa [Int.floor_natCast] at this
    exact Int.toNat_le.mpr hfl
  rw [hlen] at hk
  refine ⟨?_, ?_, ?_, ?_⟩
  · simp only [split_dataset, List.length_take, hlen]
    omega
  · simp only [split_dataset, List.length_take, List.length_drop]
    omega
  · simp only [split_dataset]
    exact List.take_append_drop _ _
  · simp only [split_dataset, List.take_append_drop]
    exact hp

/-- Ten entries, for the C6 witness (Scenario 4 scaled down). -/
def c6List : List Nat := [0, 1, 2, 3, 4, 5, 6, 7, 8, 9]

theorem c6_witness : (split_dataset c6List (9 / 10 : ℚ)).1.length = 9 := by
  have h := (c6_split_dataset c6List c6List (9 / 10 : ℚ) (by norm_num) (by norm_num)
    (List.Perm.refl _)).1
  rw [h]
  have h10 : c6List.length = 10 := by simp [c6List]
  rw [h10]
  rw [show ⌊((10 : Nat) : ℚ) * (9 / 10 : ℚ)⌋ = 9 by norm_num]
  rfl

/-- Record with a string subject and valid body, for the C7 witness. -/
def c7Email : Email :=
  { id := none
    subject := some "Plan".toList
    text_plain := some (String.mk (List.replicate 70 'p')).toList
    text_html := none
    snippet := none
    sent_at := none
    from_email := none
    to_email := none }

/-- The training example produced for `c7Email`. -/
def c7Ex : TrainingExample :=
  mkExample c7Email "Plan".toList (String.mk (List.replicate 70 'p')).toList

set_option maxRecDepth 40000 in
theorem c7_witness :
    (mainRun true [c7Email] 1 OutFormat.both).exitCode = 0 ∧
      (mainRun true [c7Email] 1 OutFormat.both).filesWritten =
        filesForFormat OutFormat.both ∧
      filesForFormat OutFormat.both ≠ [] :=
  (c7_mainRun_exit true [c7Email] 1 OutFormat.both).2.2.2.2 rfl (by decide) c7Ex []
    (by rw [create_eq_createF]; rfl)

/-! ## Statistics lemmas (C8) -/

theorem countP_disjoint_le {α : Type} (p q : α → Bool) (l : List α)
    (h : ∀ a, p a = true → q a = false) :
    l.countP p + l.countP q ≤ l.length := by
  induction l with
  | nil => simp
  | cons a l ih =>
    simp only [List.countP_cons, List.length_cons]
    by_cases hp : p a = true
    · have hq := h a hp
      simp [hp, hq]
      omega
    · have hp' : p a = false := by simpa using hp
      by_cases hq : q a = true
      · simp [hp', hq]
        omega
      · have hq' : q a = false := by simpa using hq
        simp [hp', hq']
        omega

theorem statsReply_not_fwd (s : Str) (h : statsIsReply s = true) :
    statsIsFwd s = false := by
  cases s with
  | nil => simp [statsIsReply, begWith] at h
  | cons c r =>
    have hre : "Re:".toList = 'R' :: 'e' :: ':' :: [] := rfl
    have hRE : "RE:".toList = 'R' :: 'E' :: ':' :: [] := rfl
    have hor : begWith "Re:".toList (c :: r) = true ∨
        begWith "RE:".toList (c :: r) = true := by
      have h2 := h
      simp only [statsIsReply, Bool.or_eq_true] at h2
      exact h2
    have hc : c = 'R' := by
      rcases hor with h3 | h3
      · exact (((begWith_cons c).mp (by rw [hre] at h3; exact h3)).1).symm
      · exact (((begWith_cons c).mp (by rw [hRE] at h3; exact h3)).1).symm
    subst hc
    have hfwd : "Fwd:".toList = 'F' :: 'w' :: 'd' :: ':' :: [] := rfl
    have hFW : "FW:".toList = 'F' :: 'W' :: ':' :: [] := rfl
    simp only [statsIsFwd, hfwd, hFW]
    rw [show begWith ('F' :: 'w' :: 'd' :: ':' :: []) ('R' :: r) = false by
      simp [begWith]]
    rw [show begWith ('F' :: 'W' :: ':' :: []) ('R' :: r) = false by
      simp [begWith]]
    rfl

theorem foldl_min_le_init (l : List Nat) (a : Nat) : l.foldl min a ≤ a := by
  induction l generalizing a with
  | nil => simp
  | cons c l ih =>
    simp only [List.foldl_cons]
    exact le_trans (ih (min a c)) (min_le_left a c)

theorem foldl_min_le_mem (l : List Nat) (a : Nat) : ∀ x ∈ l, l.foldl min a ≤ x := by
  induction l generalizing a with
  | nil => simp
  | cons c l ih =>
    intro x hx
    simp only [List.foldl_cons]
    rcases List.mem_cons.mp hx with rfl | hx
    · exact le_trans (foldl_min_le_init l (min a x)) (min_le_right a x)
    · exact ih (min a c) x hx

theorem le_foldl_max_init (l : List Nat) (a : Nat) : a ≤ l.foldl max a := by
  induction l generalizing a with
  | nil => simp
  | cons c l ih =>
    simp only [List.foldl_cons]
    exact le_trans (le_max_left a c) (ih (max a c))

theorem le_foldl_max_mem (l : List Nat) (a : Nat) : ∀ x ∈ l, x ≤ l.foldl max a := by
  induction l generalizing a with
  | nil => simp
  | cons c l ih =>
    intro x hx
    simp only [List.foldl_cons]
    rcases List.mem_cons.mp hx with rfl | hx
    · exact le_trans (le_max_right a x) (le_foldl_max_init l (max a x))
    · exact ih (max a c) x hx

/-- C8: statistics on an empty list is the empty structure (no division runs);
on a non-empty list it reports the total, the extremal output lengths (true
bounds for every example), the `Re:`/`RE:` prefix count as replies, the
`Fwd:`/`FW:` prefix count as forwards, and the remainder as new, so
replies + forwards + new = total (with a non-negative remainder). -/
theorem c8_create_statistics :
    create_statistics [] = none ∧
      ∀ (e : TrainingExample) (rest : List TrainingExample),
        ∃ s : Stats, create_statistics (e :: rest) = some s ∧
          s.total_examples = (e :: rest).length ∧
          s.reply_emails = (e :: rest).countP (fun ex => statsIsReply ex.metadata.subject) ∧
          s.forward_emails = (e :: rest).countP (fun ex => statsIsFwd ex.metadata.subject) ∧
          (s.reply_emails : Int) + s.forward_emails + s.new_emails = s.total_examples ∧
          0 ≤ s.new_emails ∧
          ∀ ex ∈ e :: rest, s.min_email_length ≤ ex.output.length ∧
            ex.output.length ≤ s.max_email_length := by
  refine ⟨rfl, ?_⟩
  intro e rest
  refine ⟨_, rfl, rfl, rfl, rfl, ?_, ?_, ?_⟩
  · push_cast
    ring
  · have hd := countP_disjoint_le (fun ex => statsIsReply ex.metadata.subject)
      (fun ex => statsIsFwd ex.metadata.subject) (e :: rest)
      (fun ex hex => statsReply_not_fwd ex.metadata.subject hex)
    simp only [create_statistics]
    omega
  · intro ex hex
    have hmem : ex.output.length ∈ (e :: rest).map (fun x => x.output.length) :=
      List.mem_map_of_mem _ hex
    constructor
    · exact foldl_min_le_mem _ _ _ hmem
    · exact le_foldl_max_mem _ _ _ hmem

/-- C9: the Alpaca and Chat formatters are total, order- and
length-preserving maps: position `i` of the Alpaca output is the metadata-free
projection of example `i`, and position `i` of the Chat output wraps example
`i`'s instruction and output around the fixed system prompt. -/
theorem c9_formatters (exs : List TrainingExample) :
    (create_alpaca_format exs).length = exs.length ∧
      (create_chat_format exs).length = exs.length ∧
      (∀ i : Nat, (create_alpaca_format exs)[i]? = exs[i]?.map fun ex =>
        { instruction := ex.instruction, input := ex.input, output := ex.output }) ∧
      (∀ i : Nat, (create_chat_format exs)[i]? = exs[i]?.map fun ex =>
        { messages :=
            [ { role := "system".toList, content := systemPrompt }
            , { role := "user".toList, content := ex.instruction }
            , { role := "assistant".toList, content := ex.output } ] }) := by
  refine ⟨?_, ?_, ?_, ?_⟩
  · simp [create_alpaca_format]
  · simp [create_chat_format]
  · intro i
    simp [create_alpaca_format, List.getElem?_map]
  · intro i
    simp [create_chat_format, List.getElem?_map]

/-- Record with subject `Re:Hello` (no space after the colon). -/
def c10Email : Email :=
  { id := none
    subject := some "Re:Hello".toList
    text_plain := some (String.mk (List.replicate 64 'q')).toList
    text_html := none
    snippet := none
    sent_at := none
    from_email := none
    to_email := none }

/-- The training example produced for `c10Email`. -/
def c10Ex : TrainingExample :=
  mkExample c10Email "Re:Hello".toList (String.mk (List.replicate 64 'q')).toList

set_option maxRecDepth 40000 in
/-- C10: the statistics reply test (`Re:`/`RE:`, no trailing space) is
strictly weaker than the context reply test (`Re: `/`RE: ` with the space):
every context-reply subject is a statistics-reply, but `Re:Hello` is counted
as a reply by statistics while `extract_context` yields no context, so the
assembled instruction takes the non-reply form. -/
theorem c10_reply_predicate_mismatch :
    (∀ s : Str, ctxIsReply s = true → statsIsReply s = true) ∧
      statsIsReply "Re:Hello".toList = true ∧
      ctxIsReply "Re:Hello".toList = false ∧
      extract_context_str "Re:Hello".toList = none ∧
      create_training_examples [c10Email] = .ok [c10Ex] ∧
      c10Ex.instruction = "Write a professional email about: Re:Hello".toList := by
  refine ⟨?_, by decide, by decide, ?_, ?_, by decide⟩
  · intro s h
    have hor : begWith "Re: ".toList s = true ∨ begWith "RE: ".toList s = true := by
      simp only [ctxIsReply, Bool.or_eq_true] at h
      exact h
    rcases hor with h1 | h1
    · have hp : "Re:".toList <+: s :=
        (begWith_iff.mp (by decide : begWith "Re:".toList "Re: ".toList = true)).trans
          (begWith_iff.mp h1)
      simp only [statsIsReply, Bool.or_eq_true]
      exact Or.inl (begWith_iff.mpr hp)
    · have hp : "RE:".toList <+: s :=
        (begWith_iff.mp (by decide : begWith "RE:".toList "RE: ".toList = true)).trans
          (begWith_iff.mp h1)
      simp only [statsIsReply, Bool.or_eq_true]
      exact Or.inr (begWith_iff.mpr hp)
  · decide
  · rw [create_eq_createF]
    rfl

theorem c10_witness : statsIsReply "Re: Budget".toList = true :=
  c10_reply_predicate_mismatch.1 "Re: Budget".toList (by decide)

/-- Training example used by the C8 witness. -/
def c8Ex : TrainingExample :=
  { instruction := "Write a professional email about: Hi".toList
    input := []
    output := List.replicate 52 'm'
    metadata :=
      { email_id := none
        subject := "Hi".toList
        sent_at := "None".toList
        «from» := none
        «to» := none } }

theorem c8_witness :
    ∃ s : Stats, create_statistics [c8Ex] = some s ∧
      s.min_email_length ≤ c8Ex.output.length := by
  obtain ⟨s, hs, h1, h2, h3, h4, h5, hb⟩ := c8_create_statistics.2 c8Ex []
  exact ⟨s, hs, (hb c8Ex (by simp)).1⟩
